import Mathlib

/-!
Shallow embedding of the sidebar reconciliation logic of the repository
(src/lib/sidebar-order.ts, recursive variant; normalizeOrders from the sidebar
admin page; nameToSlug / isValidSlug from the slug utilities; the
/api/sidebar-config GET handler), together with proofs settling the frozen
claims about it.

Modelling conventions:
- TypeScript numbers used as `order` values are modelled as `Int` (the code only
  ever compares, increments and takes maxima of them).
- JavaScript string truthiness (`item.path &&`) is modelled as `path ≠ ""`.
- `Set`/`Map` of paths are modelled as `List String` with membership, and a
  last-write-wins lookup mirroring `Map.set` in iteration order.
- `Array.prototype.sort` (guaranteed stable, comparator of the form `key a - key b`
  or a locale comparison) is modelled by a stable insertion sort by the same key.
- `localeCompare(..., { sensitivity: base })` on slug paths is modelled as
  lexicographic comparison of the lowercased strings.
-/

/-- A sidebar structure node: the `SidebarConfigItem` union of the source
(`page` / `folder` / `divider`). A divider has an optional order and no path. -/
inductive Item : Type where
  | page (path : String) (order : Int) (pinned : Bool)
  | folder (path : String) (order : Int) (pinned : Bool) (children : List Item)
  | divider (order : Option Int)
deriving Repr

/-! Decidable equality for `Item` (the automatic derivation does not handle the
nested `List Item`, so it is written out by mutual recursion). -/
mutual
def itemDecEq : (a b : Item) → Decidable (a = b)
  | .page p o pi, .page q u qi =>
      if h : p = q ∧ o = u ∧ pi = qi then
        .isTrue (by simp [h.1, h.2.1, h.2.2])
      else
        .isFalse (by intro hc; cases hc; exact h ⟨rfl, rfl, rfl⟩)
  | .folder p o pi cs, .folder q u qi ds =>
      match itemsDecEq cs ds with
      | .isTrue hcs =>
        if h : p = q ∧ o = u ∧ pi = qi then
          .isTrue (by simp [h.1, h.2.1, h.2.2, hcs])
        else
          .isFalse (by intro hc; cases hc; exact h ⟨rfl, rfl, rfl⟩)
      | .isFalse hcs => .isFalse (by intro hc; cases hc; exact hcs rfl)
  | .divider o, .divider u =>
      if h : o = u then .isTrue (by simp [h])
      else .isFalse (by intro hc; cases hc; exact h rfl)
  | .page _ _ _, .folder _ _ _ _ => .isFalse (by intro hc; cases hc)
  | .page _ _ _, .divider _ => .isFalse (by intro hc; cases hc)
  | .folder _ _ _ _, .page _ _ _ => .isFalse (by intro hc; cases hc)
  | .folder _ _ _ _, .divider _ => .isFalse (by intro hc; cases hc)
  | .divider _, .page _ _ _ => .isFalse (by intro hc; cases hc)
  | .divider _, .folder _ _ _ _ => .isFalse (by intro hc; cases hc)

def itemsDecEq : (a b : List Item) → Decidable (a = b)
  | [], [] => .isTrue rfl
  | [], _ :: _ => .isFalse (by intro hc; cases hc)
  | _ :: _, [] => .isFalse (by intro hc; cases hc)
  | x :: xs, y :: ys =>
      match itemDecEq x y, itemsDecEq xs ys with
      | .isTrue h1, .isTrue h2 => .isTrue (by rw [h1, h2])
      | .isFalse h1, _ => .isFalse (by intro hc; cases hc; exact h1 rfl)
      | _, .isFalse h2 => .isFalse (by intro hc; cases hc; exact h2 rfl)
end

instance : DecidableEq Item := itemDecEq

/-- Source `getItemPath`: a divider has no path (the code returns the empty
string for it). -/
def getItemPath : Item → String
  | .divider _ => ""
  | .page p _ _ => p
  | .folder p _ _ _ => p

/-- Source `getOrder`: the `order` field, defaulting to 0 for a divider without
one (the code reads `item.order ?? 0` when the field is present). -/
def getOrder : Item → Int
  | .divider o => o.getD 0
  | .page _ o _ => o
  | .folder _ o _ _ => o

/-- Source `isPinned`: dividers are never pinned. -/
def isPinned : Item → Bool
  | .divider _ => false
  | .page _ _ pi => pi
  | .folder _ _ pi _ => pi

/-- Whether the item is a divider (the code tests `item.type === divider`). -/
def isDividerB : Item → Bool
  | .divider _ => true
  | _ => false

/-- Comparator of the source root / pinned / divider sorts:
`(a, b) => getOrder(a) - getOrder(b)` is negative exactly when
`getOrder a < getOrder b`. -/
def ltOrder (a b : Item) : Bool := decide (getOrder a < getOrder b)

/-- Comparator of the source unpinned sort: `localeCompare` with base
sensitivity, modelled as comparing the lowercased paths. -/
def ltPath (a b : Item) : Bool :=
  decide ((getItemPath a).toLower < (getItemPath b).toLower)

/-- Insert one element into an already sorted list, before the first element
that is not strictly below it; together with `stableSortBy` this is the unique
stable sort for a comparator induced by a total key, hence the behaviour of the
(stable) JavaScript `Array.prototype.sort`. -/
def insertBy (lt : Item → Item → Bool) (x : Item) : List Item → List Item
  | [] => [x]
  | y :: ys => if lt y x then y :: insertBy lt x ys else x :: y :: ys

/-- Stable sort by a comparator (models `[...items].sort(cmp)`). -/
def stableSortBy (lt : Item → Item → Bool) : List Item → List Item
  | [] => []
  | x :: xs => insertBy lt x (stableSortBy lt xs)

/-- The zone partition of `sortToDisplayOrder` below the root: pinned
pages/folders sorted by order, then dividers sorted by order, then unpinned
pages/folders sorted case-insensitively by path (source lines building
`pinned`, `dividers`, `unpinned` and concatenating them). -/
def zoneSort (items : List Item) : List Item :=
  let pinned := stableSortBy ltOrder (items.filter (fun i => !isDividerB i && isPinned i))
  let dividers := stableSortBy ltOrder (items.filter (fun i => isDividerB i))
  let unpinned := stableSortBy ltPath (items.filter (fun i => !isDividerB i && !isPinned i))
  pinned ++ dividers ++ unpinned

/-! One recursion step of `sortToDisplayOrder`: descend into folder children
with the below-root rule. Mapping this over the sorted sibling list is the
`result.map((item) => ...)` of the source; it commutes with the sorts because
it changes no path, order, pinned flag or node type (proved below as
`sortToDisplayOrder_source_shape`). -/
mutual
def sortStep : Item → Item
  | .page p o pi => .page p o pi
  | .divider o => .divider o
  | .folder p o pi cs => .folder p o pi (zoneSort (sortSteps cs))

def sortSteps : List Item → List Item
  | [] => []
  | x :: xs => sortStep x :: sortSteps xs
end

/-- Source `sortToDisplayOrder`: at the root every item is sorted by `order`;
below the root the three zones apply; folder children are sorted recursively
with the below-root rule. -/
def sortToDisplayOrder (items : List Item) (atRootLevel : Bool) : List Item :=
  if atRootLevel then sortSteps (stableSortBy ltOrder items)
  else sortSteps (zoneSort items)

/-! Source `getValidPathsFromContentStructure` (recursive variant): every
page/folder path with a truthy path, at any depth; a folder with a falsy path
is not descended into. Modelled as the list of paths in walk order (the code
fills a `Set`; only membership is ever used). -/
mutual
def validPathsItem : Item → List String
  | .divider _ => []
  | .page p _ _ => if p ≠ "" then [p] else []
  | .folder p _ _ cs => if p ≠ "" then p :: validPathsList cs else []

def validPathsList : List Item → List String
  | [] => []
  | x :: xs => validPathsItem x ++ validPathsList xs
end

/-- Source `getValidPathsFromContentStructure`. -/
def getValidPathsFromContentStructure (items : List Item) : List String :=
  validPathsList items

/-! Source `filterConfigToExisting` (recursive variant) fused with the
`children.filter(...).map(...)` body it applies inside a kept folder:
`filterConfigToExisting` is the top-level loop (dividers kept) and
`filterChildren` is the children pipeline (only pages/folders with a truthy
path in `validPaths` are kept, so dividers are dropped there; a kept nested
folder has its grandchildren filtered by the top-level function again). -/
mutual
def filterConfigToExisting (config : List Item) (validPaths : List String) : List Item :=
  match config with
  | [] => []
  | .divider o :: rest => .divider o :: filterConfigToExisting rest validPaths
  | .page p o pi :: rest =>
      if p ≠ "" ∧ p ∈ validPaths then
        .page p o pi :: filterConfigToExisting rest validPaths
      else filterConfigToExisting rest validPaths
  | .folder p o pi cs :: rest =>
      if p ≠ "" ∧ p ∈ validPaths then
        .folder p o pi (filterChildren cs validPaths) :: filterConfigToExisting rest validPaths
      else filterConfigToExisting rest validPaths

def filterChildren (children : List Item) (validPaths : List String) : List Item :=
  match children with
  | [] => []
  | .divider _ :: rest => filterChildren rest validPaths
  | .page p o pi :: rest =>
      if p ≠ "" ∧ p ∈ validPaths then
        .page p o pi :: filterChildren rest validPaths
      else filterChildren rest validPaths
  | .folder p o pi cs :: rest =>
      if p ≠ "" ∧ p ∈ validPaths then
        .folder p o pi (filterConfigToExisting cs validPaths) :: filterChildren rest validPaths
      else filterChildren rest validPaths
end

/-! Source `getMaxOrderInStructure`: running maximum starting at 0 of every
order in the structure (divider orders defaulting to 0), descending into folder
children. -/
mutual
def maxOrderItem : Item → Int
  | .divider o => o.getD 0
  | .page _ o _ => o
  | .folder _ o _ cs => max o (getMaxOrderInStructure cs)

def getMaxOrderInStructure : List Item → Int
  | [] => 0
  | x :: xs => max (maxOrderItem x) (getMaxOrderInStructure xs)
end

/-- One step of building the source `contentByPath` map: `Map.set` overwrites,
so a later item with the same truthy path wins. -/
def lookupStep (p : String) (acc : Option Item) (c : Item) : Option Item :=
  if !isDividerB c && getItemPath c ≠ "" && getItemPath c == p then some c else acc

/-- `contentByPath.get(p)`: the last non-divider item with truthy path `p`. -/
def lookupLast (l : List Item) (p : String) : Option Item :=
  l.foldl (lookupStep p) none

theorem sizeOf_lt_of_mem_items {x : Item} {l : List Item} (h : x ∈ l) :
    sizeOf x < sizeOf l := by
  induction l with
  | nil => cases h
  | cons y ys ih =>
    rcases List.mem_cons.mp h with h1 | h2
    · subst h1; simp; omega
    · have := ih h2; simp; omega

theorem foldl_lookupStep_pick (p : String) :
    ∀ (l : List Item) (acc : Option Item),
      l.foldl (lookupStep p) acc = acc ∨
      ∃ c ∈ l, l.foldl (lookupStep p) acc = some c ∧
        isDividerB c = false ∧ getItemPath c = p := by
  intro l
  induction l with
  | nil => intro acc; left; rfl
  | cons y ys ih =>
    intro acc
    simp only [List.foldl_cons]
    by_cases hc : (!isDividerB y && decide (getItemPath y ≠ "") && getItemPath y == p) = true
    · have hstep : lookupStep p acc y = some y := by unfold lookupStep; rw [if_pos hc]
      rw [hstep]
      have hdiv : isDividerB y = false := by
        simp only [Bool.and_eq_true, Bool.not_eq_true'] at hc
        exact hc.1.1
      have hpath : getItemPath y = p := by
        simp only [Bool.and_eq_true, beq_iff_eq] at hc
        exact hc.2
      rcases ih (some y) with h1 | ⟨c, hc1, hc2, hc3⟩
      · right; exact ⟨y, List.mem_cons_self y ys, h1, hdiv, hpath⟩
      · right; exact ⟨c, List.mem_cons_of_mem y hc1, hc2, hc3⟩
    · have hstep : lookupStep p acc y = acc := by unfold lookupStep; rw [if_neg hc]
      rw [hstep]
      rcases ih acc with h1 | ⟨c, hc1, hc2, hc3⟩
      · left; exact h1
      · right; exact ⟨c, List.mem_cons_of_mem y hc1, hc2, hc3⟩

theorem lookupLast_mem {l : List Item} {p : String} {x : Item}
    (h : lookupLast l p = some x) : x ∈ l := by
  unfold lookupLast at h
  rcases foldl_lookupStep_pick p l none with h1 | ⟨c, hc1, hc2, _⟩
  · rw [h1] at h; cases h
  · rw [hc2] at h; cases h; exact hc1

/-! Source `mergeChildrenLists`, split into its two phases. `mergeConfigWalk`
is the loop over `configList` (dividers and pages pass through; a folder with a
truthy path takes its children from a recursive merge against the content
folder of the same path when one exists, otherwise keeps them as-is; a folder
with a falsy path matches no branch and is dropped). `mergeAppendWalk` is the
loop over `contentList` appending unseen content (skipping dividers, falsy
paths and paths already present in the result), with the shared
`maxOrderRef` threaded as the `Int` state. -/
mutual
def mergeConfigWalk (configList contentList : List Item) (m : Int) : List Item × Int :=
  match configList with
  | [] => ([], m)
  | .divider o :: ks =>
      let r := mergeConfigWalk ks contentList m
      (.divider o :: r.1, r.2)
  | .page p o pi :: ks =>
      let r := mergeConfigWalk ks contentList m
      (.page p o pi :: r.1, r.2)
  | .folder p o pi kcs :: ks =>
      if p = "" then mergeConfigWalk ks contentList m
      else
        let cres :=
          match h : lookupLast contentList p with
          | some (.folder _ _ _ ccs) => mergeChildrenLists kcs ccs m
          | _ => (kcs, m)
        let r := mergeConfigWalk ks contentList cres.2
        (.folder p o pi cres.1 :: r.1, r.2)
termination_by (sizeOf contentList, 0, sizeOf configList)
decreasing_by
  all_goals first
    | (apply Prod.Lex.right; apply Prod.Lex.right; simp <;> omega)
    | (apply Prod.Lex.left
       have hmem := lookupLast_mem (by assumption)
       have hlt := sizeOf_lt_of_mem_items hmem
       simp at hlt ⊢
       omega)

def mergeAppendWalk (acc : List Item) (pending : List Item) (m : Int) : List Item × Int :=
  match pending with
  | [] => (acc, m)
  | c :: cs =>
      if isDividerB c then mergeAppendWalk acc cs m
      else if getItemPath c = "" then mergeAppendWalk acc cs m
      else if acc.any (fun r => !isDividerB r && getItemPath r == getItemPath c) then
        mergeAppendWalk acc cs m
      else
        match c with
        | .page p _ _ => mergeAppendWalk (acc ++ [.page p (m + 1) false]) cs (m + 1)
        | .folder p _ _ ccs =>
            let sub := mergeChildrenLists [] ccs (m + 1)
            mergeAppendWalk (acc ++ [.folder p (m + 1) false sub.1]) cs sub.2
        | .divider _ => mergeAppendWalk acc cs m
termination_by (sizeOf pending, 0, 0)
decreasing_by
  all_goals apply Prod.Lex.left
  all_goals simp <;> omega

def mergeChildrenLists (configList contentList : List Item) (m : Int) : List Item × Int :=
  let cw := mergeConfigWalk configList contentList m
  mergeAppendWalk cw.1 contentList cw.2
termination_by (sizeOf contentList, 1, 0)
decreasing_by
  all_goals apply Prod.Lex.right
  all_goals apply Prod.Lex.left
  all_goals omega
end

/-- Source `mergeSidebarWithContent`: filter the config to existing paths,
merge recursively against the content (threading the running max order seeded
by `getMaxOrderInStructure` of the filtered config), then sort for display at
the root level. -/
def mergeSidebarWithContent (contentStructure configStructure : List Item) : List Item :=
  let validPaths := getValidPathsFromContentStructure contentStructure
  let filteredConfig := filterConfigToExisting configStructure validPaths
  let merged := mergeChildrenLists filteredConfig contentStructure
    (getMaxOrderInStructure filteredConfig)
  sortToDisplayOrder merged.1 true

/-! Source `normalizeOrders` (sidebar admin page): renumber every item of a
sibling list 1..N in list order (dividers included), recursing into folder
children with a fresh counter. `normalizeOrdersFrom` carries the counter. -/
mutual
def normalizeOne (o : Int) : Item → Item
  | .divider _ => .divider (some o)
  | .page p _ pi => .page p o pi
  | .folder p _ pi cs => .folder p o pi (normalizeOrdersFrom 1 cs)

def normalizeOrdersFrom (o : Int) : List Item → List Item
  | [] => []
  | x :: rest => normalizeOne o x :: normalizeOrdersFrom (o + 1) rest
end

/-- Source `normalizeOrders`. -/
def normalizeOrders (items : List Item) : List Item := normalizeOrdersFrom 1 items

/-! Slug utilities (the `nameToSlug` / `isValidSlug` pair). Strings are
processed as their character lists; JavaScript whitespace is modelled by
`Char.isWhitespace`, `toLowerCase` by `Char.toLower`, and each regex
replacement by the corresponding list transformation. -/

/-- A character admitted by the `[^a-z0-9-]` removal: lowercase ASCII letter,
digit, or hyphen. -/
def isSlugKeepChar (c : Char) : Bool :=
  (decide ('a' ≤ c) && decide (c ≤ 'z')) || (decide ('0' ≤ c) && decide (c ≤ '9')) || c == '-'

/-- A character admitted inside a slug segment by `SLUG_REGEX`: lowercase ASCII
letter or digit. -/
def isSlugSegmentChar (c : Char) : Bool :=
  (decide ('a' ≤ c) && decide (c ≤ 'z')) || (decide ('0' ≤ c) && decide (c ≤ '9'))

/-- Model of `.trim()`: strip leading and trailing whitespace. -/
def trimChars (cs : List Char) : List Char :=
  ((cs.dropWhile Char.isWhitespace).reverse.dropWhile Char.isWhitespace).reverse

/-- Model of `.replace(/\s+/g, "-")`: each maximal whitespace run becomes one
hyphen; the flag records whether the previous character was whitespace. -/
def wsRunsToHyphen (prevWs : Bool) : List Char → List Char
  | [] => []
  | c :: cs =>
      if c.isWhitespace then
        if prevWs then wsRunsToHyphen true cs else '-' :: wsRunsToHyphen true cs
      else c :: wsRunsToHyphen false cs

/-- Model of the hyphen-run replacement (regex: one or more hyphens, global,
replaced by a single hyphen): collapse each hyphen run to one hyphen; the flag
records whether the previous kept character was a hyphen. -/
def collapseHyphens (prevHy : Bool) : List Char → List Char
  | [] => []
  | c :: cs =>
      if c == '-' then
        if prevHy then collapseHyphens true cs else '-' :: collapseHyphens true cs
      else c :: collapseHyphens false cs

/-- Model of `.replace(/^-|-$/g, "")` on a hyphen-collapsed string: remove one
leading and one trailing hyphen. -/
def stripEdgeHyphens (cs : List Char) : List Char :=
  let h := match cs with
    | '-' :: rest => rest
    | other => other
  match h.reverse with
  | '-' :: rest => rest.reverse
  | _ => h

/-- Source `nameToSlug` as the composition of the five steps on the character
list. -/
def nameToSlugChars (cs : List Char) : List Char :=
  stripEdgeHyphens (collapseHyphens false
    ((wsRunsToHyphen false ((trimChars cs).map Char.toLower)).filter isSlugKeepChar))

/-- Source `nameToSlug` (the `typeof` guard is vacuous in a typed model). -/
def nameToSlug (name : String) : String :=
  String.mk (nameToSlugChars name.data)

/-! Source `SLUG_REGEX = ^[a-z0-9]+(?:-[a-z0-9]+)*$` as a recursive matcher:
`slugHead` expects the start of a segment (at least one alphanumeric),
`slugTail` continues a segment or starts a new one after a hyphen. -/
mutual
def slugHead : List Char → Bool
  | [] => false
  | c :: cs => isSlugSegmentChar c && slugTail cs

def slugTail : List Char → Bool
  | [] => true
  | c :: cs =>
      if isSlugSegmentChar c then slugTail cs
      else if c == '-' then slugHead cs
      else false
end

/-- Source `isValidSlug`: non-empty and matching `SLUG_REGEX`. -/
def isValidSlug (slug : String) : Bool :=
  decide (slug.length > 0) && slugHead slug.data

/-! Model of the `/api/sidebar-config` GET handler (route.ts). The remote fetch
and JSON decoding are abstracted into the outcome the handler branches on; the
handler itself is the total function from that outcome to the response. -/

/-- What `JSON.parse` + the shape check see in a fetched config document. -/
inductive ConfigDoc where
  | unparsable
  | wrongShape
  | wellFormed (structureArr : List Item)
deriving Repr, DecidableEq

/-- Outcome of the `octokit.repos.getContent` call as the handler distinguishes
it: an exception with an optional HTTP status, a directory listing, a file
without inline content, or a decodable file. -/
inductive FetchOutcome where
  | thrown (status : Option Nat)
  | dirData
  | noContent
  | fileContent (doc : ConfigDoc)
deriving Repr, DecidableEq

/-- The response as far as the claims are concerned: HTTP status, the
`structure` field of the body when present, and whether the body carries an
`error` field. -/
structure GetResponse where
  status : Nat
  structureField : Option (List Item)
  hasErrorField : Bool
deriving Repr, DecidableEq

/-- Source GET handler: a parse failure throws into the catch block whose
status test fails (a `SyntaxError` has no `status`), a shape failure returns
the explicit invalid-config 500, and only a 404 from the fetch produces the
successful empty-structure response. -/
def sidebarConfigGET : FetchOutcome → GetResponse
  | .thrown (some 404) => ⟨200, some [], true⟩
  | .thrown _ => ⟨500, none, true⟩
  | .dirData => ⟨500, none, true⟩
  | .noContent => ⟨500, none, true⟩
  | .fileContent .unparsable => ⟨500, none, true⟩
  | .fileContent .wrongShape => ⟨500, none, true⟩
  | .fileContent (.wellFormed s) => ⟨200, some s, false⟩

/-! Observation machinery for the reconciliation proofs: the decorated
occurrences of a structure are its page/folder nodes with their path, chain of
enclosing folder paths, order, pinned flag and kind. Two structures with
permutation-equal occurrence lists contain the same nodes at the same
depth/nesting. -/

/-- A page/folder occurrence: path, ancestor folder paths from the root, order,
pinned flag, and whether the node is a folder. -/
structure POcc where
  path : String
  anc : List String
  ord : Int
  pinned : Bool
  isFolder : Bool
deriving Repr, DecidableEq

/-- The location part of an occurrence (what completeness is about). -/
def locOf (e : POcc) : String × List String := (e.path, e.anc)

mutual
def fullOccsItem (anc : List String) : Item → List POcc
  | .divider _ => []
  | .page p o pi => [⟨p, anc, o, pi, false⟩]
  | .folder p o pi cs => ⟨p, anc, o, pi, true⟩ :: fullOccsList (anc ++ [p]) cs

def fullOccsList (anc : List String) : List Item → List POcc
  | [] => []
  | x :: xs => fullOccsItem anc x ++ fullOccsList anc xs
end

mutual
def itemDeepPaths : Item → List String
  | .divider _ => []
  | .page p _ _ => [p]
  | .folder p _ _ cs => p :: listDeepPaths cs

def listDeepPaths : List Item → List String
  | [] => []
  | x :: xs => itemDeepPaths x ++ listDeepPaths xs
end

/-- The paths of the non-divider items of one sibling list (what the merge
append phase tests against and what level matching is about). -/
def levelPaths (l : List Item) : List String :=
  l.filterMap (fun x => if isDividerB x then none else some (getItemPath x))

/-- The first non-divider item with the given path at one level (under
duplicate-free level paths this is also what `lookupLast` returns). -/
def findPF (l : List Item) (p : String) : Option Item :=
  l.find? (fun c => !isDividerB c && getItemPath c == p)

/-- The consecutive integers `s+1, s+2, ..., s+n` (the orders handed out by the
running-max reference during appends). -/
def consecInts (s : Int) : Nat → List Int
  | 0 => []
  | n + 1 => (s + 1) :: consecInts (s + 1) n

/-! Level-wise matching of a (filtered) configured sibling list against the
observed sibling list it is merged with: every page of the configured list has
an observed page of the same path at the same level, every folder an observed
folder, recursively. This is the shape invariant `filterConfigToExisting`
establishes for aligned configurations and under which the merge walk is
complete. -/
mutual
def matchedItemB (C : List Item) : Item → Bool
  | .divider _ => true
  | .page p _ _ =>
      match findPF C p with
      | some (.page _ _ _) => true
      | _ => false
  | .folder p _ _ kcs =>
      match findPF C p with
      | some (.folder _ _ _ ccs) => matchedListB ccs kcs
      | _ => false

def matchedListB (C : List Item) : List Item → Bool
  | [] => true
  | k :: ks => matchedItemB C k && matchedListB C ks
end

/-! Alignment of an arbitrary configured structure with the observed structure:
a configured page or folder whose path exists somewhere in the observed
structure must sit at the observed sibling level with the observed node kind
(recursively); a configured folder whose path does not exist must not hide any
existing path inside it. The counterexamples below show reconciliation loses or
duplicates content exactly when this fails. -/
mutual
def alignedItemB (V : List String) (C : List Item) : Item → Bool
  | .divider _ => true
  | .page p _ _ =>
      if p ∈ V then
        match findPF C p with
        | some (.page _ _ _) => true
        | _ => false
      else true
  | .folder p _ _ kcs =>
      if p ∈ V then
        match findPF C p with
        | some (.folder _ _ _ ccs) => alignedListB V ccs kcs
        | _ => false
      else (listDeepPaths kcs).all (fun q => decide (q ∉ V))

def alignedListB (V : List String) (C : List Item) : List Item → Bool
  | [] => true
  | k :: ks => alignedItemB V C k && alignedListB V C ks
end

/-! Content-side coverage for the idempotence claim: every observed page/folder
at a level is configured at that level (with matching kind, recursively), so
the merge appends nothing. -/
mutual
def coveredItemB (K : List Item) : Item → Bool
  | .divider _ => true
  | .page p _ _ =>
      match findPF K p with
      | some (.page _ _ _) => true
      | _ => false
  | .folder p _ _ ccs =>
      match findPF K p with
      | some (.folder _ _ _ kcs) => coveredListB kcs ccs
      | _ => false

def coveredListB (K : List Item) : List Item → Bool
  | [] => true
  | c :: cs => coveredItemB K c && coveredListB K cs
end

/-! Divider-free subtrees (the configured shape under which the filter
pre-pass is the identity; dividers below the root are dropped by it). -/
mutual
def dividerFreeItem : Item → Bool
  | .divider _ => false
  | .page _ _ _ => true
  | .folder _ _ _ cs => dividerFreeListB cs

def dividerFreeListB : List Item → Bool
  | [] => true
  | x :: xs => dividerFreeItem x && dividerFreeListB xs
end

/-- No divider strictly below the root level. -/
def noDividersBelowRoot (l : List Item) : Bool :=
  l.all (fun x =>
    match x with
    | .folder _ _ _ cs => dividerFreeListB cs
    | _ => true)

/-! Goal predicates of the three merge phases, used by the master lemmas below.
`CWGoal` describes `mergeConfigWalk`, `APGoal` describes `mergeAppendWalk`,
`MCGoal` describes `mergeChildrenLists`: the output occurrences are the input
configured occurrences (exactly, decorations included) plus a list `A` of
appended occurrences, all unpinned, whose orders are the consecutive integers
handed out by the running-max reference; and location-wise (path + ancestor
chain) the output is exactly the observed content (for the config walk: the
content items matched at this level). -/
def CWGoal (K C : List Item) (m : Int) : Prop :=
  ∀ anc : List String,
    matchedListB C K = true →
    (listDeepPaths K).Nodup →
    (∀ q ∈ listDeepPaths K, q ≠ "") →
    (listDeepPaths C).Nodup →
    (∀ q ∈ listDeepPaths C, q ≠ "") →
    ∃ A : List POcc,
      List.Perm (fullOccsList anc (mergeConfigWalk K C m).1) (fullOccsList anc K ++ A) ∧
      List.Perm ((fullOccsList anc (mergeConfigWalk K C m).1).map locOf)
        ((fullOccsList anc (C.filter (fun c => !isDividerB c &&
            decide (getItemPath c ∈ levelPaths K)))).map locOf) ∧
      (∀ e ∈ A, e.pinned = false) ∧
      (mergeConfigWalk K C m).2 = m + A.length ∧
      A.map POcc.ord = consecInts m A.length ∧
      levelPaths (mergeConfigWalk K C m).1 = levelPaths K

def APGoal (acc pending : List Item) (m : Int) : Prop :=
  ∀ anc : List String,
    (listDeepPaths pending).Nodup →
    (∀ q ∈ listDeepPaths pending, q ≠ "") →
    ∃ A : List POcc,
      List.Perm (fullOccsList anc (mergeAppendWalk acc pending m).1)
        (fullOccsList anc acc ++ A) ∧
      List.Perm ((fullOccsList anc (mergeAppendWalk acc pending m).1).map locOf)
        ((fullOccsList anc acc).map locOf ++
         (fullOccsList anc (pending.filter (fun c => !isDividerB c &&
            decide (getItemPath c ∉ levelPaths acc)))).map locOf) ∧
      (∀ e ∈ A, e.pinned = false) ∧
      (mergeAppendWalk acc pending m).2 = m + A.length ∧
      A.map POcc.ord = consecInts m A.length

def MCGoal (K C : List Item) (m : Int) : Prop :=
  ∀ anc : List String,
    matchedListB C K = true →
    (listDeepPaths K).Nodup →
    (∀ q ∈ listDeepPaths K, q ≠ "") →
    (listDeepPaths C).Nodup →
    (∀ q ∈ listDeepPaths C, q ≠ "") →
    ∃ A : List POcc,
      List.Perm (fullOccsList anc (mergeChildrenLists K C m).1)
        (fullOccsList anc K ++ A) ∧
      List.Perm ((fullOccsList anc (mergeChildrenLists K C m).1).map locOf)
        ((fullOccsList anc C).map locOf) ∧
      (∀ e ∈ A, e.pinned = false) ∧
      (mergeChildrenLists K C m).2 = m + A.length ∧
      A.map POcc.ord = consecInts m A.length

/-! ### Basic facts about the stable sort and the display sort -/

theorem insertBy_perm (lt : Item → Item → Bool) (x : Item) (l : List Item) :
    List.Perm (insertBy lt x l) (x :: l) := by
  induction l with
  | nil => simp [insertBy]
  | cons y ys ih =>
    by_cases h : lt y x = true
    · simp only [insertBy, if_pos h]
      exact (ih.cons y).trans (List.Perm.swap x y ys)
    · rw [insertBy, if_neg h]

theorem stableSortBy_perm (lt : Item → Item → Bool) (l : List Item) :
    List.Perm (stableSortBy lt l) l := by
  induction l with
  | nil => simp [stableSortBy]
  | cons x xs ih =>
    exact (insertBy_perm lt x (stableSortBy lt xs)).trans (ih.cons x)

theorem mem_stableSortBy {lt : Item → Item → Bool} {x : Item} {l : List Item} :
    x ∈ stableSortBy lt l ↔ x ∈ l :=
  (stableSortBy_perm lt l).mem_iff

theorem stableSortBy_cons (lt : Item → Item → Bool) (x : Item) (l : List Item) :
    stableSortBy lt (x :: l) = insertBy lt x (stableSortBy lt l) := rfl

theorem zoneSort_perm (l : List Item) : List.Perm (zoneSort l) l := by
  induction l with
  | nil => simp [zoneSort, stableSortBy]
  | cons x xs ih =>
    simp only [zoneSort] at ih ⊢
    by_cases hd : isDividerB x = true
    · have e1 : List.filter (fun i => !isDividerB i && isPinned i) (x :: xs)
          = List.filter (fun i => !isDividerB i && isPinned i) xs := by
        simp [List.filter_cons, hd]
      have e2 : List.filter (fun i => isDividerB i) (x :: xs)
          = x :: List.filter (fun i => isDividerB i) xs := by
        simp [List.filter_cons, hd]
      have e3 : List.filter (fun i => !isDividerB i && !isPinned i) (x :: xs)
          = List.filter (fun i => !isDividerB i && !isPinned i) xs := by
        simp [List.filter_cons, hd]
      rw [e1, e2, e3, stableSortBy_cons]
      refine List.Perm.trans ?_ (ih.cons x)
      refine List.Perm.trans
        (List.Perm.append_right _ (List.Perm.append_left _ (insertBy_perm _ _ _))) ?_
      simp only [List.append_assoc]
      exact List.perm_middle
    · have hd' : isDividerB x = false := by simpa using hd
      by_cases hp : isPinned x = true
      · have e1 : List.filter (fun i => !isDividerB i && isPinned i) (x :: xs)
            = x :: List.filter (fun i => !isDividerB i && isPinned i) xs := by
          simp [List.filter_cons, hd', hp]
        have e2 : List.filter (fun i => isDividerB i) (x :: xs)
            = List.filter (fun i => isDividerB i) xs := by
          simp [List.filter_cons, hd']
        have e3 : List.filter (fun i => !isDividerB i && !isPinned i) (x :: xs)
            = List.filter (fun i => !isDividerB i && !isPinned i) xs := by
          simp [List.filter_cons, hd', hp]
        rw [e1, e2, e3, stableSortBy_cons]
        refine List.Perm.trans ?_ (ih.cons x)
        refine List.Perm.trans
          (List.Perm.append_right _ (List.Perm.append_right _ (insertBy_perm _ _ _))) ?_
        simp only [List.cons_append]
        exact List.Perm.refl _
      · have hp' : isPinned x = false := by simpa using hp
        have e1 : List.filter (fun i => !isDividerB i && isPinned i) (x :: xs)
            = List.filter (fun i => !isDividerB i && isPinned i) xs := by
          simp [List.filter_cons, hd', hp']
        have e2 : List.filter (fun i => isDividerB i) (x :: xs)
            = List.filter (fun i => isDividerB i) xs := by
          simp [List.filter_cons, hd']
        have e3 : List.filter (fun i => !isDividerB i && !isPinned i) (x :: xs)
            = x :: List.filter (fun i => !isDividerB i && !isPinned i) xs := by
          simp [List.filter_cons, hd', hp']
        rw [e1, e2, e3, stableSortBy_cons]
        refine List.Perm.trans ?_ (ih.cons x)
        refine List.Perm.trans (List.Perm.append_left _ (insertBy_perm _ _ _)) ?_
        exact List.perm_middle

theorem sortSteps_eq_map (l : List Item) : sortSteps l = l.map sortStep := by
  induction l with
  | nil => rfl
  | cons x xs ih => simp [sortSteps, ih]

theorem sortSteps_append (l1 l2 : List Item) :
    sortSteps (l1 ++ l2) = sortSteps l1 ++ sortSteps l2 := by
  simp [sortSteps_eq_map]

theorem getItemPath_sortStep (x : Item) : getItemPath (sortStep x) = getItemPath x := by
  cases x <;> rfl

theorem getOrder_sortStep (x : Item) : getOrder (sortStep x) = getOrder x := by
  cases x <;> rfl

theorem isPinned_sortStep (x : Item) : isPinned (sortStep x) = isPinned x := by
  cases x <;> rfl

theorem isDividerB_sortStep (x : Item) : isDividerB (sortStep x) = isDividerB x := by
  cases x <;> rfl

theorem sortToDisplayOrder_perm (items : List Item) (b : Bool) :
    List.Perm (sortToDisplayOrder items b) (sortSteps items) := by
  unfold sortToDisplayOrder
  by_cases hb : b = true
  · simp only [hb, ite_true]
    rw [sortSteps_eq_map, sortSteps_eq_map]
    exact (stableSortBy_perm ltOrder items).map sortStep
  · simp only [hb, Bool.false_eq_true, not_false_iff, ite_false]
    rw [sortSteps_eq_map, sortSteps_eq_map]
    exact (zoneSort_perm items).map sortStep

/-! ### Occurrence lists -/

theorem fullOccsList_append (anc : List String) (l1 l2 : List Item) :
    fullOccsList anc (l1 ++ l2) = fullOccsList anc l1 ++ fullOccsList anc l2 := by
  induction l1 with
  | nil => simp [fullOccsList]
  | cons x xs ih => simp [fullOccsList, ih]

theorem fullOccsList_eq_flatMap (anc : List String) (l : List Item) :
    fullOccsList anc l = l.flatMap (fullOccsItem anc) := by
  induction l with
  | nil => rfl
  | cons x xs ih => simp [fullOccsList, ih, List.flatMap_cons]

theorem fullOccsList_perm_congr {l1 l2 : List Item} (anc : List String)
    (h : List.Perm l1 l2) :
    List.Perm (fullOccsList anc l1) (fullOccsList anc l2) := by
  rw [fullOccsList_eq_flatMap, fullOccsList_eq_flatMap]
  exact h.flatMap_right _

mutual
theorem fullOccsItem_sortStep_perm (anc : List String) :
    ∀ (x : Item), List.Perm (fullOccsItem anc (sortStep x)) (fullOccsItem anc x)
  | .page p o pi => by simp [sortStep, fullOccsItem]
  | .divider o => by simp [sortStep, fullOccsItem]
  | .folder p o pi cs => by
      simp only [sortStep, fullOccsItem]
      refine List.Perm.cons _ ?_
      exact (fullOccsList_perm_congr _ (zoneSort_perm (sortSteps cs))).trans
        (fullOccsList_sortSteps_perm (anc ++ [p]) cs)

theorem fullOccsList_sortSteps_perm (anc : List String) :
    ∀ (l : List Item), List.Perm (fullOccsList anc (sortSteps l)) (fullOccsList anc l)
  | [] => by simp [sortSteps, fullOccsList]
  | x :: xs => by
      simp only [sortSteps, fullOccsList]
      exact (fullOccsItem_sortStep_perm anc x).append (fullOccsList_sortSteps_perm anc xs)
end

theorem fullOccs_sortToDisplayOrder_perm (anc : List String) (items : List Item) (b : Bool) :
    List.Perm (fullOccsList anc (sortToDisplayOrder items b)) (fullOccsList anc items) := by
  unfold sortToDisplayOrder
  by_cases hb : b = true
  · simp only [hb, ite_true]
    exact (fullOccsList_sortSteps_perm anc _).trans
      (fullOccsList_perm_congr anc (stableSortBy_perm ltOrder items))
  · simp only [hb, Bool.false_eq_true, not_false_iff, ite_false]
    exact (fullOccsList_sortSteps_perm anc _).trans
      (fullOccsList_perm_congr anc (zoneSort_perm items))

theorem listDeepPaths_append (l1 l2 : List Item) :
    listDeepPaths (l1 ++ l2) = listDeepPaths l1 ++ listDeepPaths l2 := by
  induction l1 with
  | nil => simp [listDeepPaths]
  | cons x xs ih => simp [listDeepPaths, ih]

mutual
theorem itemDeepPaths_eq_occs (anc : List String) :
    ∀ (x : Item), itemDeepPaths x = (fullOccsItem anc x).map POcc.path
  | .page p o pi => by simp [itemDeepPaths, fullOccsItem]
  | .divider o => by simp [itemDeepPaths, fullOccsItem]
  | .folder p o pi cs => by
      simp only [itemDeepPaths, fullOccsItem, List.map_cons]
      exact congrArg (p :: ·) (listDeepPaths_eq_occs (anc ++ [p]) cs)

theorem listDeepPaths_eq_occs (anc : List String) :
    ∀ (l : List Item), listDeepPaths l = (fullOccsList anc l).map POcc.path
  | [] => by simp [listDeepPaths, fullOccsList]
  | x :: xs => by
      simp only [listDeepPaths, fullOccsList, List.map_append]
      exact congrArg₂ (· ++ ·) (itemDeepPaths_eq_occs anc x) (listDeepPaths_eq_occs anc xs)
end

/-! ### Level paths, deep paths and lookup facts -/

theorem levelPaths_nil : levelPaths [] = [] := rfl

theorem levelPaths_cons (x : Item) (l : List Item) :
    levelPaths (x :: l) =
      (if isDividerB x then [] else [getItemPath x]) ++ levelPaths l := by
  unfold levelPaths
  rw [List.filterMap_cons]
  by_cases h : isDividerB x = true
  · simp [h]
  · simp only [h, Bool.false_eq_true, not_false_iff, ite_false]
    simp at h
    simp [h]

theorem levelPaths_append (l1 l2 : List Item) :
    levelPaths (l1 ++ l2) = levelPaths l1 ++ levelPaths l2 := by
  unfold levelPaths
  exact List.filterMap_append l1 l2 _

theorem levelPaths_sublist (l : List Item) : List.Sublist (levelPaths l) (listDeepPaths l) := by
  induction l with
  | nil => simp [levelPaths_nil, listDeepPaths]
  | cons x xs ih =>
    rw [levelPaths_cons]
    cases x with
    | page p o pi =>
      simp only [isDividerB, Bool.false_eq_true, ite_false, listDeepPaths, itemDeepPaths]
      exact (List.cons_sublist_cons).mpr ih
    | folder p o pi cs =>
      simp only [isDividerB, Bool.false_eq_true, ite_false, listDeepPaths, itemDeepPaths,
        getItemPath, List.cons_append, List.singleton_append]
      exact (List.cons_sublist_cons).mpr (ih.trans (List.sublist_append_right _ _))
    | divider o =>
      simp only [isDividerB, ite_true, listDeepPaths, itemDeepPaths, List.nil_append]
      exact ih

theorem itemDeepPaths_sublist_of_mem {x : Item} {l : List Item} (h : x ∈ l) :
    List.Sublist (itemDeepPaths x) (listDeepPaths l) := by
  induction l with
  | nil => cases h
  | cons y ys ih =>
    rcases List.mem_cons.mp h with h1 | h2
    · subst h1
      simp only [listDeepPaths]
      exact List.sublist_append_left _ _
    · simp only [listDeepPaths]
      exact (ih h2).trans (List.sublist_append_right _ _)

theorem childDeepPaths_sublist_of_mem {p : String} {o : Int} {pi : Bool}
    {cs : List Item} {l : List Item} (h : Item.folder p o pi cs ∈ l) :
    List.Sublist (listDeepPaths cs) (listDeepPaths l) := by
  have h1 := itemDeepPaths_sublist_of_mem h
  simp only [itemDeepPaths] at h1
  exact (List.sublist_cons_self p (listDeepPaths cs)).trans h1

theorem any_path_iff_mem_levelPaths (l : List Item) (q : String) :
    (l.any (fun r => !isDividerB r && getItemPath r == q)) = true ↔ q ∈ levelPaths l := by
  induction l with
  | nil => simp [levelPaths_nil]
  | cons x xs ih =>
    rw [List.any_cons, levelPaths_cons]
    by_cases hd : isDividerB x = true
    · simp [hd, ih]
    · have hd' : isDividerB x = false := by simpa using hd
      simp only [hd', Bool.not_false, Bool.true_and, Bool.false_eq_true, not_false_iff,
        ite_false, List.singleton_append, List.mem_cons, Bool.or_eq_true, beq_iff_eq]
      constructor
      · rintro (h | h)
        · exact Or.inl h.symm
        · exact Or.inr (ih.mp h)
      · rintro (h | h)
        · exact Or.inl h.symm
        · exact Or.inr (ih.mpr h)

theorem foldl_lookupStep_acc (p : String) :
    ∀ (l : List Item) (acc : Option Item),
      l.foldl (lookupStep p) acc =
        (match l.foldl (lookupStep p) none with
         | some x => some x
         | none => acc) := by
  intro l
  induction l with
  | nil => intro acc; simp
  | cons y ys ih =>
    intro acc
    simp only [List.foldl_cons]
    rw [ih (lookupStep p acc y), ih (lookupStep p none y)]
    cases hys : ys.foldl (lookupStep p) none with
    | some x => simp
    | none =>
      simp only []
      unfold lookupStep
      by_cases hc : (!isDividerB y && decide (getItemPath y ≠ "") && getItemPath y == p) = true
      · rw [if_pos hc, if_pos hc]
      · rw [if_neg hc, if_neg hc]

theorem lookupLast_cons (p : String) (y : Item) (ys : List Item) :
    lookupLast (y :: ys) p =
      (match lookupLast ys p with
       | some x => some x
       | none => lookupStep p none y) := by
  unfold lookupLast
  simp only [List.foldl_cons]
  rw [foldl_lookupStep_acc]

theorem lookupLast_eq_none_of_not_mem {l : List Item} {p : String}
    (h : p ∉ levelPaths l) : lookupLast l p = none := by
  induction l with
  | nil => rfl
  | cons y ys ih =>
    rw [lookupLast_cons]
    rw [levelPaths_cons] at h
    have hys : p ∉ levelPaths ys := fun hm => h (List.mem_append.mpr (Or.inr hm))
    rw [ih hys]
    simp only []
    unfold lookupStep
    by_cases hc : (!isDividerB y && decide (getItemPath y ≠ "") && getItemPath y == p) = true
    · exfalso
      simp only [Bool.and_eq_true, Bool.not_eq_true', beq_iff_eq] at hc
      apply h
      rw [hc.1.1]
      simp [hc.2]
    · rw [if_neg hc]

theorem findPF_eq_lookupLast {l : List Item} {p : String}
    (hnd : (levelPaths l).Nodup) (hp : p ≠ "") : lookupLast l p = findPF l p := by
  induction l with
  | nil => rfl
  | cons y ys ih =>
    rw [lookupLast_cons]
    rw [levelPaths_cons] at hnd
    by_cases hd : isDividerB y = true
    · have hstep : lookupStep p none y = none := by
        unfold lookupStep
        rw [if_neg]
        simp [hd]
      have hnd' : (levelPaths ys).Nodup := by simpa [hd] using hnd
      rw [ih hnd', hstep]
      unfold findPF
      rw [List.find?_cons]
      have hcond : (!isDividerB y && getItemPath y == p) = false := by simp [hd]
      rw [hcond]
      cases hys : List.find? (fun c => !isDividerB c && getItemPath c == p) ys <;> rfl
    · have hd' : isDividerB y = false := by simpa using hd
      have hnd2 : getItemPath y ∉ levelPaths ys ∧ (levelPaths ys).Nodup := by
        have h0 := hnd
        simp only [hd', Bool.false_eq_true, ite_false, List.singleton_append,
          List.nodup_cons] at h0
        exact h0
      by_cases hpy : getItemPath y = p
      · have hys0 : p ∉ levelPaths ys := by rw [← hpy]; exact hnd2.1
        rw [lookupLast_eq_none_of_not_mem hys0]
        simp only []
        unfold lookupStep findPF
        have hc : (!isDividerB y && decide (getItemPath y ≠ "") && getItemPath y == p) = true := by
          simp [hd', hpy, hp]
        rw [if_pos hc]
        rw [List.find?_cons]
        have hcond : (!isDividerB y && getItemPath y == p) = true := by simp [hd', hpy]
        rw [hcond]
      · rw [ih hnd2.2]
        have hbeq : (getItemPath y == p) = false := beq_eq_false_iff_ne.mpr hpy
        have hstep : lookupStep p none y = none := by
          simp [lookupStep, hbeq]
        rw [hstep]
        unfold findPF
        rw [List.find?_cons]
        have hcond : (!isDividerB y && getItemPath y == p) = false := by
          simp only [Bool.and_eq_false_iff, beq_eq_false_iff_ne, ne_eq]
          exact Or.inr hpy
        rw [hcond]
        cases hys : List.find? (fun c => !isDividerB c && getItemPath c == p) ys <;> rfl

theorem findPF_mem {l : List Item} {p : String} {x : Item} (h : findPF l p = some x) :
    x ∈ l :=
  List.mem_of_find?_eq_some h

theorem findPF_spec {l : List Item} {p : String} {x : Item} (h : findPF l p = some x) :
    isDividerB x = false ∧ getItemPath x = p := by
  have h1 := List.find?_some h
  simp only [Bool.and_eq_true, Bool.not_eq_true', beq_iff_eq] at h1
  exact h1

theorem filter_eq_singleton_of_findPF {l : List Item} {p : String} {x : Item}
    (hnd : (levelPaths l).Nodup) (h : findPF l p = some x) :
    l.filter (fun c => !isDividerB c && getItemPath c == p) = [x] := by
  induction l with
  | nil => cases h
  | cons y ys ih =>
    rw [levelPaths_cons] at hnd
    unfold findPF at h
    rw [List.find?_cons] at h
    by_cases hc : (!isDividerB y && getItemPath y == p) = true
    · rw [hc] at h
      simp only [Option.some.injEq] at h
      subst h
      rw [List.filter_cons, hc]
      have hyd : isDividerB y = false ∧ getItemPath y = p := by
        simpa [Bool.and_eq_true, Bool.not_eq_true', beq_iff_eq] using hc
      have hpy : p ∉ levelPaths ys := by
        have h0 := hnd
        simp only [hyd.1, Bool.false_eq_true, ite_false, List.singleton_append,
          List.nodup_cons] at h0
        rw [← hyd.2]
        exact h0.1
      have hfe : ys.filter (fun c => !isDividerB c && getItemPath c == p) = [] := by
        rw [List.filter_eq_nil_iff]
        intro c hcmem hcc
        simp only [Bool.and_eq_true, Bool.not_eq_true', beq_iff_eq] at hcc
        apply hpy
        rw [← hcc.2]
        unfold levelPaths
        apply List.mem_filterMap.mpr
        exact ⟨c, hcmem, by rw [hcc.1]; simp⟩
      rw [hfe]
      rfl
    · have hc' : (!isDividerB y && getItemPath y == p) = false := by
        simpa using hc
      rw [hc'] at h
      rw [List.filter_cons, hc']
      simp only [Bool.false_eq_true, ite_false]
      apply ih ?_ h
      rcases List.nodup_append.mp hnd with ⟨_, h2, _⟩
      exact h2

theorem filter_or_perm_disjoint (f g : Item → Bool) (l : List Item)
    (h : ∀ x ∈ l, ¬(f x = true ∧ g x = true)) :
    List.Perm (l.filter (fun x => f x || g x)) (l.filter f ++ l.filter g) := by
  induction l with
  | nil => simp
  | cons y ys ih =>
    have hys : ∀ x ∈ ys, ¬(f x = true ∧ g x = true) := by
      intro x hx
      exact h x (List.mem_cons_of_mem y hx)
    have ihy := ih hys
    rw [List.filter_cons, List.filter_cons, List.filter_cons]
    by_cases hf : f y = true
    · have hg : g y = false := by
        by_cases hgy : g y = true
        · exact absurd ⟨hf, hgy⟩ (h y (List.mem_cons_self y ys))
        · simpa using hgy
      simp only [hf, hg, Bool.true_or, ite_true, Bool.false_eq_true, ite_false,
        List.cons_append]
      exact ihy.cons y
    · have hf' : f y = false := by simpa using hf
      by_cases hg : g y = true
      · simp only [hf', hg, Bool.false_or, ite_true, Bool.false_eq_true, ite_false]
        refine List.Perm.trans (ihy.cons y) ?_
        exact List.perm_middle.symm
      · have hg' : g y = false := by simpa using hg
        simp only [hf', hg', Bool.false_or, Bool.false_eq_true, ite_false]
        exact ihy

theorem fullOccsList_filter_nondivider (anc : List String) (l : List Item) :
    fullOccsList anc (l.filter (fun c => !isDividerB c)) = fullOccsList anc l := by
  induction l with
  | nil => rfl
  | cons y ys ih =>
    rw [List.filter_cons]
    by_cases hd : isDividerB y = true
    · have : (!isDividerB y) = false := by simp [hd]
      rw [this]
      simp only [Bool.false_eq_true, ite_false]
      rw [ih]
      cases y with
      | divider o => simp [fullOccsList, fullOccsItem]
      | page p o pi => simp [isDividerB] at hd
      | folder p o pi cs => simp [isDividerB] at hd
    · have : (!isDividerB y) = true := by simpa using hd
      rw [this]
      simp only [ite_true, fullOccsList]
      rw [ih]

theorem consecInts_zero (s : Int) : consecInts s 0 = [] := rfl

theorem consecInts_succ (s : Int) (n : Nat) :
    consecInts s (n + 1) = (s + 1) :: consecInts (s + 1) n := rfl

theorem consecInts_append (s : Int) (n1 n2 : Nat) :
    consecInts s (n1 + n2) = consecInts s n1 ++ consecInts (s + n1) n2 := by
  induction n1 generalizing s with
  | zero => simp [consecInts]
  | succ k ih =>
    have : k + 1 + n2 = (k + n2) + 1 := by omega
    rw [this, consecInts_succ, consecInts_succ, ih (s + 1)]
    simp only [List.cons_append, List.cons.injEq, true_and]
    congr 2
    push_cast
    ring

/-! ### Unfolding equations for the merge walks -/

theorem mergeConfigWalk_nil (C : List Item) (m : Int) :
    mergeConfigWalk [] C m = ([], m) := by
  simp [mergeConfigWalk]

theorem mergeConfigWalk_divider (o : Option Int) (ks C : List Item) (m : Int) :
    mergeConfigWalk (.divider o :: ks) C m =
      ((.divider o : Item) :: (mergeConfigWalk ks C m).1, (mergeConfigWalk ks C m).2) := by
  simp [mergeConfigWalk]

theorem mergeConfigWalk_page (p : String) (o : Int) (pi : Bool) (ks C : List Item) (m : Int) :
    mergeConfigWalk (.page p o pi :: ks) C m =
      ((.page p o pi : Item) :: (mergeConfigWalk ks C m).1, (mergeConfigWalk ks C m).2) := by
  simp [mergeConfigWalk]

theorem mergeConfigWalk_folder_found (p : String) (o : Int) (pi : Bool)
    (kcs ks C : List Item) (m : Int) (hp : p ≠ "")
    {a : String} {b : Int} {c : Bool} {ccs : List Item}
    (hlook : lookupLast C p = some (.folder a b c ccs)) :
    mergeConfigWalk (.folder p o pi kcs :: ks) C m =
      ((.folder p o pi (mergeChildrenLists kcs ccs m).1 : Item) ::
         (mergeConfigWalk ks C (mergeChildrenLists kcs ccs m).2).1,
       (mergeConfigWalk ks C (mergeChildrenLists kcs ccs m).2).2) := by
  rw [mergeConfigWalk]
  rw [if_neg hp]
  split
  · rename_i ccs2 heq
    rw [hlook] at heq
    simp only [Option.some.injEq, Item.folder.injEq] at heq
    rw [heq.2.2.2]
  · rename_i hne
    exact absurd hlook (hne a b c ccs)

theorem mergeConfigWalk_folder_keep (p : String) (o : Int) (pi : Bool)
    (kcs ks C : List Item) (m : Int) (hp : p ≠ "")
    (hlook : ∀ a b c ccs, lookupLast C p ≠ some (.folder a b c ccs)) :
    mergeConfigWalk (.folder p o pi kcs :: ks) C m =
      ((.folder p o pi kcs : Item) :: (mergeConfigWalk ks C m).1,
       (mergeConfigWalk ks C m).2) := by
  rw [mergeConfigWalk]
  rw [if_neg hp]
  split
  · rename_i ccs2 heq
    exact absurd heq (hlook _ _ _ ccs2)
  · rfl

theorem mergeAppendWalk_nil (acc : List Item) (m : Int) :
    mergeAppendWalk acc [] m = (acc, m) := by
  rw [mergeAppendWalk.eq_def]

theorem mergeAppendWalk_skip_divider {c : Item} (acc cs : List Item) (m : Int)
    (h : isDividerB c = true) :
    mergeAppendWalk acc (c :: cs) m = mergeAppendWalk acc cs m := by
  rw [mergeAppendWalk.eq_def]
  simp [h]

theorem mergeAppendWalk_skip_empty {c : Item} (acc cs : List Item) (m : Int)
    (h1 : isDividerB c = false) (h2 : getItemPath c = "") :
    mergeAppendWalk acc (c :: cs) m = mergeAppendWalk acc cs m := by
  rw [mergeAppendWalk.eq_def]
  simp [h1, h2]

theorem mergeAppendWalk_skip_seen {c : Item} (acc cs : List Item) (m : Int)
    (h1 : isDividerB c = false) (h2 : getItemPath c ≠ "")
    (h3 : (acc.any (fun r => !isDividerB r && getItemPath r == getItemPath c)) = true) :
    mergeAppendWalk acc (c :: cs) m = mergeAppendWalk acc cs m := by
  rw [mergeAppendWalk.eq_def]
  simp only [h1, h2, h3, Bool.false_eq_true, ite_false, ite_true, if_neg, not_false_iff]

theorem mergeAppendWalk_page (p : String) (o : Int) (pi : Bool) (acc cs : List Item) (m : Int)
    (h2 : p ≠ "")
    (h3 : (acc.any (fun r => !isDividerB r && getItemPath r == p)) = false) :
    mergeAppendWalk acc (.page p o pi :: cs) m =
      mergeAppendWalk (acc ++ [.page p (m + 1) false]) cs (m + 1) := by
  rw [mergeAppendWalk.eq_def]
  simp [show isDividerB (Item.page p o pi) = false from rfl,
    show getItemPath (Item.page p o pi) = p from rfl, h2, h3]

theorem mergeAppendWalk_folder (p : String) (o : Int) (pi : Bool)
    (ccs acc cs : List Item) (m : Int) (h2 : p ≠ "")
    (h3 : (acc.any (fun r => !isDividerB r && getItemPath r == p)) = false) :
    mergeAppendWalk acc (.folder p o pi ccs :: cs) m =
      mergeAppendWalk
        (acc ++ [.folder p (m + 1) false (mergeChildrenLists [] ccs (m + 1)).1])
        cs (mergeChildrenLists [] ccs (m + 1)).2 := by
  rw [mergeAppendWalk.eq_def]
  simp [show isDividerB (Item.folder p o pi ccs) = false from rfl,
    show getItemPath (Item.folder p o pi ccs) = p from rfl, h2, h3]

theorem mergeChildrenLists_eq (K C : List Item) (m : Int) :
    mergeChildrenLists K C m =
      mergeAppendWalk (mergeConfigWalk K C m).1 C (mergeConfigWalk K C m).2 := by
  rw [mergeChildrenLists]

theorem matchedListB_cons {C : List Item} {k : Item} {ks : List Item} :
    matchedListB C (k :: ks) = true ↔
      matchedItemB C k = true ∧ matchedListB C ks = true := by
  simp [matchedListB, Bool.and_eq_true]

/-! ### Auxiliary facts feeding the master merge lemmas -/

theorem mergeChildrenLists_nil_config (C : List Item) (m : Int) :
    mergeChildrenLists [] C m = mergeAppendWalk [] C m := by
  rw [mergeChildrenLists_eq, mergeConfigWalk_nil]

theorem listDeepPaths_cons (x : Item) (l : List Item) :
    listDeepPaths (x :: l) = itemDeepPaths x ++ listDeepPaths l := rfl

theorem fullOccsList_cons (anc : List String) (x : Item) (l : List Item) :
    fullOccsList anc (x :: l) = fullOccsItem anc x ++ fullOccsList anc l := rfl

theorem getItemPath_mem_itemDeep {x : Item} (h : isDividerB x = false) :
    getItemPath x ∈ itemDeepPaths x := by
  cases x with
  | page p o pi => simp [getItemPath, itemDeepPaths]
  | folder p o pi cs => simp [getItemPath, itemDeepPaths]
  | divider o => simp [isDividerB] at h

theorem path_mem_deep_of_mem {x : Item} {l : List Item} (hx : x ∈ l)
    (h : isDividerB x = false) : getItemPath x ∈ listDeepPaths l :=
  (itemDeepPaths_sublist_of_mem hx).subset (getItemPath_mem_itemDeep h)

theorem levelPaths_singleton_page (p : String) (o : Int) (pi : Bool) :
    levelPaths [Item.page p o pi] = [p] := rfl

theorem levelPaths_singleton_folder (p : String) (o : Int) (pi : Bool) (cs : List Item) :
    levelPaths [Item.folder p o pi cs] = [p] := rfl

theorem sizeOf_pos_list (l : List Item) : 0 < sizeOf l := by
  cases l <;> simp <;> omega

/-! ### Master lemma for the append walk -/

theorem permOfEq {α : Type} {l1 l2 : List α} (h : l1 = l2) : List.Perm l1 l2 :=
  h ▸ List.Perm.refl l1

theorem not_mem_levelPaths_of_any_false {acc : List Item} {q : String}
    (h : (acc.any (fun r => !isDividerB r && getItemPath r == q)) = false) :
    q ∉ levelPaths acc := by
  intro hmem
  rw [(any_path_iff_mem_levelPaths acc q).mpr hmem] at h
  cases h

theorem masterAppendAux :
    ∀ (n : Nat) (pending : List Item), sizeOf pending ≤ n →
      ∀ (acc : List Item) (m : Int), APGoal acc pending m := by
  intro n
  induction n with
  | zero =>
    intro pending h
    exact absurd h (by have := sizeOf_pos_list pending; omega)
  | succ k ih =>
    intro pending hsz acc m
    cases pending with
    | nil =>
      intro anc hnd hne
      refine ⟨[], ?_, ?_, ?_, ?_, ?_⟩
      · rw [mergeAppendWalk_nil]; simp
      · rw [mergeAppendWalk_nil]; simp [fullOccsList]
      · simp
      · rw [mergeAppendWalk_nil]; simp
      · rfl
    | cons c cs =>
      have hszcs : sizeOf cs ≤ k := by simp at hsz; omega
      intro anc hnd hne
      by_cases hd : isDividerB c = true
      · -- content divider: skipped by the walk and absent from the filter
        rw [mergeAppendWalk_skip_divider acc cs m hd]
        have hdeep : listDeepPaths (c :: cs) = listDeepPaths cs := by
          cases c with
          | divider o => simp [listDeepPaths_cons, itemDeepPaths]
          | page p o pi => simp [isDividerB] at hd
          | folder p o pi ccs => simp [isDividerB] at hd
        rw [hdeep] at hnd hne
        rcases ih cs hszcs acc m anc hnd hne with ⟨A, ha, hb, hc, hm, ho⟩
        refine ⟨A, ha, ?_, hc, hm, ho⟩
        have hfe : (c :: cs).filter (fun x => !isDividerB x &&
            decide (getItemPath x ∉ levelPaths acc)) =
            cs.filter (fun x => !isDividerB x && decide (getItemPath x ∉ levelPaths acc)) := by
          rw [List.filter_cons]
          simp [hd]
        rw [hfe]
        exact hb
      · have hd' : isDividerB c = false := by simpa using hd
        have hpne : getItemPath c ≠ "" :=
          hne (getItemPath c) (path_mem_deep_of_mem (List.mem_cons_self c cs) hd')
        have hsubcs : List.Sublist (listDeepPaths cs) (listDeepPaths (c :: cs)) := by
          rw [listDeepPaths_cons]
          exact List.sublist_append_right _ _
        by_cases hseen : (acc.any (fun r => !isDividerB r && getItemPath r == getItemPath c)) = true
        · -- path already present at this level: skipped, and filtered out
          rw [mergeAppendWalk_skip_seen acc cs m hd' hpne hseen]
          have hmemacc : getItemPath c ∈ levelPaths acc :=
            (any_path_iff_mem_levelPaths acc _).mp hseen
          rcases ih cs hszcs acc m anc (hnd.sublist hsubcs)
            (fun q hq => hne q (hsubcs.subset hq)) with ⟨A, ha, hb, hc, hm, ho⟩
          refine ⟨A, ha, ?_, hc, hm, ho⟩
          have hfe : (c :: cs).filter (fun x => !isDividerB x &&
              decide (getItemPath x ∉ levelPaths acc)) =
              cs.filter (fun x => !isDividerB x && decide (getItemPath x ∉ levelPaths acc)) := by
            rw [List.filter_cons]
            simp [hmemacc]
          rw [hfe]
          exact hb
        · have hseen' : (acc.any (fun r => !isDividerB r && getItemPath r == getItemPath c)) = false := by
            simpa using hseen
          have hnotin : getItemPath c ∉ levelPaths acc :=
            not_mem_levelPaths_of_any_false hseen'
          have hdisj : ∀ x ∈ cs, isDividerB x = false → getItemPath x ≠ getItemPath c := by
            intro x hx hxd heq
            have h1 : getItemPath c ∈ itemDeepPaths c := getItemPath_mem_itemDeep hd'
            have h2 : getItemPath x ∈ listDeepPaths cs := path_mem_deep_of_mem hx hxd
            rw [listDeepPaths_cons] at hnd
            rcases List.nodup_append.mp hnd with ⟨_, _, hdis⟩
            exact hdis h1 (heq ▸ h2)
          cases c with
          | divider o => simp [isDividerB] at hd'
          | page p o pi =>
            have hpne2 : p ≠ "" := hpne
            have hseen2 : (acc.any (fun r => !isDividerB r && getItemPath r == p)) = false := hseen'
            have hnotin2 : p ∉ levelPaths acc := hnotin
            have hdisj2 : ∀ x ∈ cs, isDividerB x = false → getItemPath x ≠ p := hdisj
            rw [mergeAppendWalk_page p o pi acc cs m hpne2 hseen2]
            have hacc' : fullOccsList anc (acc ++ [Item.page p (m + 1) false]) =
                fullOccsList anc acc ++ [⟨p, anc, m + 1, false, false⟩] := by
              rw [fullOccsList_append]; rfl
            have hlp : levelPaths (acc ++ [Item.page p (m + 1) false]) =
                levelPaths acc ++ [p] := by
              rw [levelPaths_append, levelPaths_singleton_page]
            rcases ih cs hszcs (acc ++ [Item.page p (m + 1) false]) (m + 1) anc
              (hnd.sublist hsubcs) (fun q hq => hne q (hsubcs.subset hq))
              with ⟨A2, ha, hb, hc, hm, ho⟩
            have hfcs : cs.filter (fun x => !isDividerB x &&
                decide (getItemPath x ∉ levelPaths (acc ++ [Item.page p (m + 1) false]))) =
                cs.filter (fun x => !isDividerB x &&
                  decide (getItemPath x ∉ levelPaths acc)) := by
              apply List.filter_congr
              intro x hx
              by_cases hxd : isDividerB x = true
              · simp [hxd]
              · have hxd' : isDividerB x = false := by simpa using hxd
                have hnex := hdisj2 x hx hxd'
                rw [hlp]
                simp only [hxd', Bool.not_false, Bool.true_and]
                apply decide_eq_decide.mpr
                rw [List.mem_append, List.mem_singleton]
                constructor
                · intro h1 h2
                  exact h1 (Or.inl h2)
                · intro h1 h2
                  rcases h2 with h2 | h2
                  · exact h1 h2
                  · exact hnex h2
            have hccond : (!isDividerB (Item.page p o pi) &&
                decide (getItemPath (Item.page p o pi) ∉ levelPaths acc)) = true := by
              simp [isDividerB, getItemPath, hnotin2]
            refine ⟨⟨p, anc, m + 1, false, false⟩ :: A2, ?_, ?_, ?_, ?_, ?_⟩
            · rw [hacc', List.append_assoc, List.singleton_append] at ha
              exact ha
            · rw [hfcs, hacc'] at hb
              rw [List.filter_cons, hccond, if_pos rfl, fullOccsList_cons]
              refine hb.trans (permOfEq ?_)
              simp [fullOccsItem, locOf, List.append_assoc]
            · intro e he
              rcases List.mem_cons.mp he with he1 | he2
              · rw [he1]
              · exact hc e he2
            · rw [hm]
              simp only [List.length_cons]
              push_cast
              ring
            · simp only [List.map_cons, List.length_cons]
              rw [consecInts_succ, ho]
          | folder p o pi ccs =>
            have hpne2 : p ≠ "" := hpne
            have hseen2 : (acc.any (fun r => !isDividerB r && getItemPath r == p)) = false := hseen'
            have hnotin2 : p ∉ levelPaths acc := hnotin
            have hdisj2 : ∀ x ∈ cs, isDividerB x = false → getItemPath x ≠ p := hdisj
            have hsz_ccs : sizeOf ccs ≤ k := by simp at hsz; omega
            rw [mergeAppendWalk_folder p o pi ccs acc cs m hpne2 hseen2]
            rw [mergeChildrenLists_nil_config]
            have hsubccs : List.Sublist (listDeepPaths ccs) (listDeepPaths (Item.folder p o pi ccs :: cs)) :=
              childDeepPaths_sublist_of_mem (List.mem_cons_self _ cs)
            rcases ih ccs hsz_ccs [] (m + 1) (anc ++ [p])
              (hnd.sublist hsubccs) (fun q hq => hne q (hsubccs.subset hq))
              with ⟨Asub, sa, sb, sc, sm, so⟩
            have hocc0 : fullOccsList (anc ++ [p]) ([] : List Item) = [] := rfl
            rw [hocc0, List.nil_append] at sa
            have hfil0 : ccs.filter (fun x => !isDividerB x &&
                decide (getItemPath x ∉ levelPaths ([] : List Item))) =
                ccs.filter (fun x => !isDividerB x) := by
              apply List.filter_congr
              intro x hx
              simp [levelPaths_nil]
            rw [hfil0, fullOccsList_filter_nondivider] at sb
            rw [hocc0] at sb
            simp only [List.map_nil, List.nil_append] at sb
            set W := mergeAppendWalk [] ccs (m + 1) with hW
            have hacc' : fullOccsList anc (acc ++ [Item.folder p (m + 1) false W.1]) =
                fullOccsList anc acc ++
                  (⟨p, anc, m + 1, false, true⟩ :: fullOccsList (anc ++ [p]) W.1) := by
              rw [fullOccsList_append]
              simp [fullOccsList, fullOccsItem]
            have hlp : levelPaths (acc ++ [Item.folder p (m + 1) false W.1]) =
                levelPaths acc ++ [p] := by
              rw [levelPaths_append, levelPaths_singleton_folder]
            rcases ih cs hszcs (acc ++ [Item.folder p (m + 1) false W.1]) W.2 anc
              (hnd.sublist hsubcs) (fun q hq => hne q (hsubcs.subset hq))
              with ⟨A2, ha, hb, hc, hm, ho⟩
            have hfcs : cs.filter (fun x => !isDividerB x &&
                decide (getItemPath x ∉ levelPaths (acc ++ [Item.folder p (m + 1) false W.1]))) =
                cs.filter (fun x => !isDividerB x &&
                  decide (getItemPath x ∉ levelPaths acc)) := by
              apply List.filter_congr
              intro x hx
              by_cases hxd : isDividerB x = true
              · simp [hxd]
              · have hxd' : isDividerB x = false := by simpa using hxd
                have hnex := hdisj2 x hx hxd'
                rw [hlp]
                simp only [hxd', Bool.not_false, Bool.true_and]
                apply decide_eq_decide.mpr
                rw [List.mem_append, List.mem_singleton]
                constructor
                · intro h1 h2
                  exact h1 (Or.inl h2)
                · intro h1 h2
                  rcases h2 with h2 | h2
                  · exact h1 h2
                  · exact hnex h2
            have hccond : (!isDividerB (Item.folder p o pi ccs) &&
                decide (getItemPath (Item.folder p o pi ccs) ∉ levelPaths acc)) = true := by
              simp [isDividerB, getItemPath, hnotin2]
            refine ⟨⟨p, anc, m + 1, false, true⟩ :: (Asub ++ A2), ?_, ?_, ?_, ?_, ?_⟩
            · rw [hacc'] at ha
              refine ha.trans ?_
              have heq1 : (fullOccsList anc acc ++
                  (⟨p, anc, m + 1, false, true⟩ :: fullOccsList (anc ++ [p]) W.1)) ++ A2 =
                  fullOccsList anc acc ++
                  (⟨p, anc, m + 1, false, true⟩ :: (fullOccsList (anc ++ [p]) W.1 ++ A2)) := by
                simp [List.append_assoc]
              rw [heq1]
              exact List.Perm.append_left _ ((sa.append (List.Perm.refl A2)).cons _)
            · rw [hfcs, hacc'] at hb
              rw [List.filter_cons, hccond, if_pos rfl, fullOccsList_cons]
              refine hb.trans ?_
              have heq1 : (fullOccsList anc acc ++
                  (⟨p, anc, m + 1, false, true⟩ :: fullOccsList (anc ++ [p]) W.1)).map locOf ++
                  (fullOccsList anc (cs.filter (fun x => !isDividerB x &&
                    decide (getItemPath x ∉ levelPaths acc)))).map locOf =
                  (fullOccsList anc acc).map locOf ++
                  ((p, anc) :: ((fullOccsList (anc ++ [p]) W.1).map locOf ++
                    (fullOccsList anc (cs.filter (fun x => !isDividerB x &&
                      decide (getItemPath x ∉ levelPaths acc)))).map locOf)) := by
                simp [List.append_assoc, locOf]
              rw [heq1]
              have heq2 : (fullOccsItem anc (Item.folder p o pi ccs) ++
                  fullOccsList anc (cs.filter (fun x => !isDividerB x &&
                    decide (getItemPath x ∉ levelPaths acc)))).map locOf =
                  (p, anc) :: ((fullOccsList (anc ++ [p]) ccs).map locOf ++
                    (fullOccsList anc (cs.filter (fun x => !isDividerB x &&
                      decide (getItemPath x ∉ levelPaths acc)))).map locOf) := by
                simp [fullOccsItem, locOf]
              rw [heq2]
              refine List.Perm.append_left _ (List.Perm.cons _ ?_)
              exact List.Perm.append_right _ sb
            · intro e he
              rcases List.mem_cons.mp he with he1 | he2
              · rw [he1]
              · rcases List.mem_append.mp he2 with he3 | he4
                · exact sc e he3
                · exact hc e he4
            · rw [hm, sm]
              simp only [List.length_cons, List.length_append]
              push_cast
              ring
            · simp only [List.map_cons, List.map_append, List.length_cons, List.length_append]
              rw [consecInts_succ, consecInts_append, so, ho, sm]

theorem masterAppend (acc pending : List Item) (m : Int) : APGoal acc pending m :=
  masterAppendAux (sizeOf pending) pending le_rfl acc m

/-! ### Master lemma for the config walk and the combined merge -/

theorem perm_append_swap {α : Type} (w : List α) (x : List α) (y : List α)
    (z : List α) : List.Perm (w ++ x ++ (y ++ z)) (w ++ y ++ (x ++ z)) := by
  rw [List.append_assoc, List.append_assoc]
  apply List.Perm.append_left
  rw [← List.append_assoc x, ← List.append_assoc y]
  exact List.perm_append_comm.append_right z

theorem filter_level_cons_perm (C : List Item) (p : String) (lp : List String) (x : Item)
    (hndC : (levelPaths C).Nodup) (hf : findPF C p = some x) (hp : p ∉ lp) :
    List.Perm
      (C.filter (fun c => !isDividerB c && decide (getItemPath c ∈ p :: lp)))
      (x :: C.filter (fun c => !isDividerB c && decide (getItemPath c ∈ lp))) := by
  have hsplit : C.filter (fun c => !isDividerB c && decide (getItemPath c ∈ p :: lp)) =
      C.filter (fun c => (!isDividerB c && getItemPath c == p) ||
        (!isDividerB c && decide (getItemPath c ∈ lp))) := by
    apply List.filter_congr
    intro c _
    by_cases hdc : isDividerB c = true
    · simp [hdc]
    · have hdc' : isDividerB c = false := by simpa using hdc
      by_cases hcp : getItemPath c = p
      · simp [hdc', hcp]
      · have : (getItemPath c ∈ p :: lp) ↔ (getItemPath c ∈ lp) := by
          rw [List.mem_cons]
          constructor
          · rintro (h | h)
            · exact absurd h hcp
            · exact h
          · exact Or.inr
        simp [hdc', hcp, this]
  rw [hsplit]
  have hdisj2 : ∀ c ∈ C, ¬((!isDividerB c && getItemPath c == p) = true ∧
      (!isDividerB c && decide (getItemPath c ∈ lp)) = true) := by
    rintro c _ ⟨h1, h2⟩
    simp only [Bool.and_eq_true, beq_iff_eq] at h1 h2
    rw [h1.2] at h2
    exact hp (by simpa using h2.2)
  refine (filter_or_perm_disjoint _ _ C hdisj2).trans ?_
  rw [filter_eq_singleton_of_findPF hndC hf]
  exact permOfEq (List.singleton_append)

theorem combineCWAP {K C : List Item} {m : Int}
    (hCW : CWGoal K C m) (hAP : ∀ acc m2, APGoal acc C m2) : MCGoal K C m := by
  intro anc hm hndK hneK hndC hneC
  rcases hCW anc hm hndK hneK hndC hneC with ⟨A1, a1, b1, c1, d1, e1, f1⟩
  rcases hAP (mergeConfigWalk K C m).1 (mergeConfigWalk K C m).2 anc hndC hneC
    with ⟨A2, a2, b2, c2, d2, e2⟩
  refine ⟨A1 ++ A2, ?_, ?_, ?_, ?_, ?_⟩
  · rw [mergeChildrenLists_eq]
    refine a2.trans ?_
    refine ((a1.append (List.Perm.refl A2)).trans ?_)
    exact permOfEq (by simp [List.append_assoc])
  · rw [mergeChildrenLists_eq]
    refine b2.trans ?_
    rw [f1] at b2 ⊢
    refine ((b1.append (List.Perm.refl _)).trans ?_)
    have hsplit : List.Perm
        ((fullOccsList anc (C.filter (fun c => !isDividerB c &&
          decide (getItemPath c ∈ levelPaths K)))) ++
         (fullOccsList anc (C.filter (fun c => !isDividerB c &&
          decide (getItemPath c ∉ levelPaths K)))))
        (fullOccsList anc C) := by
      have h1 : List.Perm
          (C.filter (fun c => (!isDividerB c && decide (getItemPath c ∈ levelPaths K)) ||
            (!isDividerB c && decide (getItemPath c ∉ levelPaths K))))
          (C.filter (fun c => !isDividerB c && decide (getItemPath c ∈ levelPaths K)) ++
           C.filter (fun c => !isDividerB c && decide (getItemPath c ∉ levelPaths K))) := by
        apply filter_or_perm_disjoint
        rintro c _ ⟨h1, h2⟩
        simp only [Bool.and_eq_true, decide_eq_true_eq] at h1 h2
        exact h2.2 h1.2
      have h2 : C.filter (fun c => (!isDividerB c && decide (getItemPath c ∈ levelPaths K)) ||
            (!isDividerB c && decide (getItemPath c ∉ levelPaths K))) =
          C.filter (fun c => !isDividerB c) := by
        apply List.filter_congr
        intro c _
        by_cases hdc : isDividerB c = true
        · simp [hdc]
        · have hdc' : isDividerB c = false := by simpa using hdc
          by_cases hcm : getItemPath c ∈ levelPaths K
          · simp [hdc', hcm]
          · simp [hdc', hcm]
      rw [h2] at h1
      refine List.Perm.trans ?_ (permOfEq (fullOccsList_filter_nondivider anc C))
      rw [← fullOccsList_append]
      exact fullOccsList_perm_congr anc h1.symm
    rw [← List.map_append]
    exact hsplit.map locOf
  · intro e he
    rcases List.mem_append.mp he with h | h
    · exact c1 e h
    · exact c2 e h
  · rw [mergeChildrenLists_eq, d2, d1]
    simp only [List.length_append]
    push_cast
    ring
  · simp only [List.map_append, List.length_append]
    rw [e1, e2, d1, consecInts_append]

theorem levelPaths_cons_page (p : String) (o : Int) (pi : Bool) (l : List Item) :
    levelPaths (Item.page p o pi :: l) = p :: levelPaths l := by
  rw [levelPaths_cons]
  simp [isDividerB, getItemPath]

theorem levelPaths_cons_folder (p : String) (o : Int) (pi : Bool) (cs l : List Item) :
    levelPaths (Item.folder p o pi cs :: l) = p :: levelPaths l := by
  rw [levelPaths_cons]
  simp [isDividerB, getItemPath]

theorem levelPaths_cons_divider (o : Option Int) (l : List Item) :
    levelPaths (Item.divider o :: l) = levelPaths l := by
  rw [levelPaths_cons]
  simp [isDividerB]

theorem masterCWAux :
    ∀ (n : Nat) (C : List Item), sizeOf C ≤ n →
      ∀ (K : List Item) (m : Int), CWGoal K C m := by
  intro n
  induction n with
  | zero =>
    intro C h
    exact absurd h (by have := sizeOf_pos_list C; omega)
  | succ t ihC =>
    intro C hszC K
    induction K with
    | nil =>
      intro m anc hmK hndK hneK hndC hneC
      refine ⟨[], ?_, ?_, ?_, ?_, ?_, ?_⟩
      · rw [mergeConfigWalk_nil]
        simp [fullOccsList]
      · rw [mergeConfigWalk_nil]
        have hfe : C.filter (fun c => !isDividerB c &&
            decide (getItemPath c ∈ levelPaths ([] : List Item))) = [] := by
          apply List.filter_eq_nil_iff.mpr
          intro c _
          simp [levelPaths_nil]
        rw [hfe]
      · simp
      · rw [mergeConfigWalk_nil]
        simp
      · rfl
      · rw [mergeConfigWalk_nil]
    | cons k ks ihK =>
      intro m anc hmK hndK hneK hndC hneC
      rcases matchedListB_cons.mp hmK with ⟨hmk, hmks⟩
      have hndlC : (levelPaths C).Nodup := hndC.sublist (levelPaths_sublist C)
      cases k with
      | divider o =>
        have hdeep : listDeepPaths (Item.divider o :: ks) = listDeepPaths ks := by
          simp [listDeepPaths_cons, itemDeepPaths]
        rw [hdeep] at hndK hneK
        rcases ihK m anc hmks hndK hneK hndC hneC with ⟨A, a1, b1, c1, d1, e1, f1⟩
        rw [mergeConfigWalk_divider]
        refine ⟨A, ?_, ?_, c1, d1, e1, ?_⟩
        · rw [fullOccsList_cons, fullOccsList_cons]
          simp only [fullOccsItem, List.nil_append]
          exact a1
        · rw [fullOccsList_cons]
          simp only [fullOccsItem, List.nil_append]
          rw [levelPaths_cons_divider]
          exact b1
        · rw [levelPaths_cons_divider, levelPaths_cons_divider]
          exact f1
      | page p o pi =>
        have hpdeep : p ∈ listDeepPaths (Item.page p o pi :: ks) := by
          simp [listDeepPaths_cons, itemDeepPaths]
        have hpne : p ≠ "" := hneK p hpdeep
        have hsubks : List.Sublist (listDeepPaths ks)
            (listDeepPaths (Item.page p o pi :: ks)) := by
          rw [listDeepPaths_cons]
          exact List.sublist_append_right _ _
        have hpnotks : p ∉ levelPaths ks := by
          intro hmem
          rw [listDeepPaths_cons] at hndK
          simp only [itemDeepPaths, List.singleton_append, List.nodup_cons] at hndK
          exact hndK.1 ((levelPaths_sublist ks).subset hmem)
        -- the matched content page
        have hfp : ∃ b2 c2, findPF C p = some (Item.page p b2 c2) := by
          simp only [matchedItemB] at hmk
          cases hf : findPF C p with
          | none => rw [hf] at hmk; cases hmk
          | some x =>
            cases x with
            | page a2 b2 c2 =>
              have ha2 := (findPF_spec hf).2
              simp only [getItemPath] at ha2
              exact ⟨b2, c2, by rw [ha2]⟩
            | folder a2 b2 c2 ds => rw [hf] at hmk; cases hmk
            | divider o2 => rw [hf] at hmk; cases hmk
        rcases hfp with ⟨b2, c2, hf⟩
        rcases ihK m anc hmks (hndK.sublist hsubks)
          (fun q hq => hneK q (hsubks.subset hq)) hndC hneC
          with ⟨A, a1, b1, c1, d1, e1, f1⟩
        rw [mergeConfigWalk_page]
        refine ⟨A, ?_, ?_, c1, d1, e1, ?_⟩
        · rw [fullOccsList_cons, fullOccsList_cons]
          simp only [fullOccsItem, List.singleton_append, List.cons_append]
          exact a1.cons _
        · rw [fullOccsList_cons]
          simp only [fullOccsItem, List.singleton_append, List.map_cons]
          rw [levelPaths_cons_page]
          have hperm := filter_level_cons_perm C p (levelPaths ks)
            (Item.page p b2 c2) hndlC hf hpnotks
          refine List.Perm.trans ?_ ((fullOccsList_perm_congr anc hperm).map locOf).symm
          rw [fullOccsList_cons]
          simp only [fullOccsItem, List.singleton_append, List.map_cons]
          exact (b1.cons _)
        · rw [levelPaths_cons_page, levelPaths_cons_page, f1]
      | folder p o pi kcs =>
        have hpdeep : p ∈ listDeepPaths (Item.folder p o pi kcs :: ks) := by
          simp [listDeepPaths_cons, itemDeepPaths]
        have hpne : p ≠ "" := hneK p hpdeep
        have hsubks : List.Sublist (listDeepPaths ks)
            (listDeepPaths (Item.folder p o pi kcs :: ks)) := by
          rw [listDeepPaths_cons]
          exact List.sublist_append_right _ _
        have hsubkcs : List.Sublist (listDeepPaths kcs)
            (listDeepPaths (Item.folder p o pi kcs :: ks)) :=
          childDeepPaths_sublist_of_mem (List.mem_cons_self _ _)
        have hpnotks : p ∉ levelPaths ks := by
          intro hmem
          rw [listDeepPaths_cons] at hndK
          simp only [itemDeepPaths, List.cons_append, List.nodup_cons] at hndK
          apply hndK.1
          apply List.mem_append.mpr
          exact Or.inr ((levelPaths_sublist ks).subset hmem)
        -- the matched content folder and its children
        have hfp : ∃ b2 c2 ccs, findPF C p = some (Item.folder p b2 c2 ccs) ∧
            matchedListB ccs kcs = true := by
          simp only [matchedItemB] at hmk
          cases hf : findPF C p with
          | none => rw [hf] at hmk; cases hmk
          | some x =>
            cases x with
            | page a2 b2 c2 => rw [hf] at hmk; cases hmk
            | folder a2 b2 c2 ccs =>
              have ha2 := (findPF_spec hf).2
              simp only [getItemPath] at ha2
              rw [hf] at hmk
              exact ⟨b2, c2, ccs, by rw [ha2], by simpa using hmk⟩
            | divider o2 => rw [hf] at hmk; cases hmk
        rcases hfp with ⟨b2, c2, ccs, hf, hmccs⟩
        have hlook : lookupLast C p = some (Item.folder p b2 c2 ccs) := by
          rw [findPF_eq_lookupLast hndlC hpne]
          exact hf
        have hszccs : sizeOf ccs ≤ t := by
          have h1 := sizeOf_lt_of_mem_items (findPF_mem hf)
          simp only [Item.folder.sizeOf_spec] at h1
          omega
        have hsubCccs : List.Sublist (listDeepPaths ccs) (listDeepPaths C) :=
          childDeepPaths_sublist_of_mem (findPF_mem hf)
        have hMC : MCGoal kcs ccs m :=
          combineCWAP (ihC ccs hszccs kcs m) (fun acc m2 => masterAppend acc ccs m2)
        rcases hMC (anc ++ [p]) hmccs (hndK.sublist hsubkcs)
          (fun q hq => hneK q (hsubkcs.subset hq))
          (hndC.sublist hsubCccs) (fun q hq => hneC q (hsubCccs.subset hq))
          with ⟨Asub, sa, sb, sc, sd, se⟩
        rcases ihK (mergeChildrenLists kcs ccs m).2 anc hmks (hndK.sublist hsubks)
          (fun q hq => hneK q (hsubks.subset hq)) hndC hneC
          with ⟨A2, a1, b1, c1, d1, e1, f1⟩
        rw [mergeConfigWalk_folder_found p o pi kcs ks C m hpne hlook]
        refine ⟨Asub ++ A2, ?_, ?_, ?_, ?_, ?_, ?_⟩
        · rw [fullOccsList_cons, fullOccsList_cons]
          simp only [fullOccsItem, List.cons_append]
          refine List.Perm.cons _ ?_
          refine ((sa.append a1).trans ?_)
          exact perm_append_swap _ _ _ _
        · rw [fullOccsList_cons]
          simp only [fullOccsItem, List.cons_append, List.map_cons, List.map_append]
          rw [levelPaths_cons_folder]
          have hperm := filter_level_cons_perm C p (levelPaths ks)
            (Item.folder p b2 c2 ccs) hndlC hf hpnotks
          refine List.Perm.trans ?_ ((fullOccsList_perm_congr anc hperm).map locOf).symm
          rw [fullOccsList_cons]
          simp only [fullOccsItem, List.cons_append, List.map_cons, List.map_append]
          refine List.Perm.cons _ ?_
          exact sb.append b1
        · intro e he
          rcases List.mem_append.mp he with h | h
          · exact sc e h
          · exact c1 e h
        · rw [d1, sd]
          simp only [List.length_append]
          push_cast
          ring
        · simp only [List.map_append, List.length_append]
          rw [se, e1, sd, consecInts_append]
        · rw [levelPaths_cons_folder, levelPaths_cons_folder, f1]

theorem masterCW (K C : List Item) (m : Int) : CWGoal K C m :=
  masterCWAux (sizeOf C) C le_rfl K m

theorem masterMC (K C : List Item) (m : Int) : MCGoal K C m :=
  combineCWAP (masterCW K C m) (fun acc m2 => masterAppend acc C m2)

/-! ### The filter pre-pass: matching, path soundness and occurrence preservation -/

mutual
theorem alignedFilterTop (V : List String) (C : List Item) :
    ∀ (K : List Item), alignedListB V C K = true →
      matchedListB C (filterConfigToExisting K V) = true
  | [], _ => by simp [filterConfigToExisting, matchedListB]
  | k :: ks, h => by
      have hk : alignedItemB V C k = true ∧ alignedListB V C ks = true := by
        simpa [alignedListB, Bool.and_eq_true] using h
      cases k with
      | divider o =>
        rw [filterConfigToExisting]
        exact matchedListB_cons.mpr ⟨rfl, alignedFilterTop V C ks hk.2⟩
      | page p o pi =>
        by_cases hc : p ≠ "" ∧ p ∈ V
        · rw [filterConfigToExisting, if_pos hc]
          refine matchedListB_cons.mpr ⟨?_, alignedFilterTop V C ks hk.2⟩
          have h1 := hk.1
          simp only [alignedItemB, hc.2, if_pos] at h1
          simpa [matchedItemB] using h1
        · rw [filterConfigToExisting, if_neg hc]
          exact alignedFilterTop V C ks hk.2
      | folder p o pi kcs =>
        by_cases hc : p ≠ "" ∧ p ∈ V
        · rw [filterConfigToExisting, if_pos hc]
          refine matchedListB_cons.mpr ⟨?_, alignedFilterTop V C ks hk.2⟩
          have h1 := hk.1
          simp only [alignedItemB, hc.2, if_pos] at h1
          simp only [matchedItemB]
          cases hf : findPF C p with
          | none => rw [hf] at h1; cases h1
          | some x =>
            cases x with
            | page a2 b2 c2 => rw [hf] at h1; cases h1
            | divider o2 => rw [hf] at h1; cases h1
            | folder a2 b2 c2 ccs =>
              rw [hf] at h1
              exact alignedFilterChildren V ccs kcs (by simpa using h1)
        · rw [filterConfigToExisting, if_neg hc]
          exact alignedFilterTop V C ks hk.2

theorem alignedFilterChildren (V : List String) (C : List Item) :
    ∀ (K : List Item), alignedListB V C K = true →
      matchedListB C (filterChildren K V) = true
  | [], _ => by simp [filterChildren, matchedListB]
  | k :: ks, h => by
      have hk : alignedItemB V C k = true ∧ alignedListB V C ks = true := by
        simpa [alignedListB, Bool.and_eq_true] using h
      cases k with
      | divider o =>
        rw [filterChildren]
        exact alignedFilterChildren V C ks hk.2
      | page p o pi =>
        by_cases hc : p ≠ "" ∧ p ∈ V
        · rw [filterChildren, if_pos hc]
          refine matchedListB_cons.mpr ⟨?_, alignedFilterChildren V C ks hk.2⟩
          have h1 := hk.1
          simp only [alignedItemB, hc.2, if_pos] at h1
          simpa [matchedItemB] using h1
        · rw [filterChildren, if_neg hc]
          exact alignedFilterChildren V C ks hk.2
      | folder p o pi kcs =>
        by_cases hc : p ≠ "" ∧ p ∈ V
        · rw [filterChildren, if_pos hc]
          refine matchedListB_cons.mpr ⟨?_, alignedFilterChildren V C ks hk.2⟩
          have h1 := hk.1
          simp only [alignedItemB, hc.2, if_pos] at h1
          simp only [matchedItemB]
          cases hf : findPF C p with
          | none => rw [hf] at h1; cases h1
          | some x =>
            cases x with
            | page a2 b2 c2 => rw [hf] at h1; cases h1
            | divider o2 => rw [hf] at h1; cases h1
            | folder a2 b2 c2 ccs =>
              rw [hf] at h1
              exact alignedFilterTop V ccs kcs (by simpa using h1)
        · rw [filterChildren, if_neg hc]
          exact alignedFilterChildren V C ks hk.2
end

mutual
theorem filterTop_deep_sublist (V : List String) :
    ∀ (K : List Item),
      List.Sublist (listDeepPaths (filterConfigToExisting K V)) (listDeepPaths K)
  | [] => by rw [filterConfigToExisting]
  | k :: ks => by
      cases k with
      | divider o =>
        rw [filterConfigToExisting, listDeepPaths_cons, listDeepPaths_cons]
        simp only [itemDeepPaths, List.nil_append]
        exact filterTop_deep_sublist V ks
      | page p o pi =>
        by_cases hc : p ≠ "" ∧ p ∈ V
        · rw [filterConfigToExisting, if_pos hc, listDeepPaths_cons, listDeepPaths_cons]
          simp only [itemDeepPaths, List.singleton_append]
          exact (filterTop_deep_sublist V ks).cons₂ p
        · rw [filterConfigToExisting, if_neg hc, listDeepPaths_cons]
          simp only [itemDeepPaths, List.singleton_append]
          exact (filterTop_deep_sublist V ks).cons p
      | folder p o pi kcs =>
        by_cases hc : p ≠ "" ∧ p ∈ V
        · rw [filterConfigToExisting, if_pos hc, listDeepPaths_cons, listDeepPaths_cons]
          simp only [itemDeepPaths, List.cons_append]
          exact ((filterChildren_deep_sublist V kcs).append
            (filterTop_deep_sublist V ks)).cons₂ p
        · rw [filterConfigToExisting, if_neg hc, listDeepPaths_cons]
          simp only [itemDeepPaths, List.cons_append]
          exact ((filterTop_deep_sublist V ks).trans
            (List.sublist_append_right _ _)).trans
            (List.sublist_cons_self p _)

theorem filterChildren_deep_sublist (V : List String) :
    ∀ (K : List Item),
      List.Sublist (listDeepPaths (filterChildren K V)) (listDeepPaths K)
  | [] => by rw [filterChildren]
  | k :: ks => by
      cases k with
      | divider o =>
        rw [filterChildren, listDeepPaths_cons]
        simp only [itemDeepPaths, List.nil_append]
        exact filterChildren_deep_sublist V ks
      | page p o pi =>
        by_cases hc : p ≠ "" ∧ p ∈ V
        · rw [filterChildren, if_pos hc, listDeepPaths_cons, listDeepPaths_cons]
          simp only [itemDeepPaths, List.singleton_append]
          exact (filterChildren_deep_sublist V ks).cons₂ p
        · rw [filterChildren, if_neg hc, listDeepPaths_cons]
          simp only [itemDeepPaths, List.singleton_append]
          exact (filterChildren_deep_sublist V ks).cons p
      | folder p o pi kcs =>
        by_cases hc : p ≠ "" ∧ p ∈ V
        · rw [filterChildren, if_pos hc, listDeepPaths_cons, listDeepPaths_cons]
          simp only [itemDeepPaths, List.cons_append]
          exact ((filterTop_deep_sublist V kcs).append
            (filterChildren_deep_sublist V ks)).cons₂ p
        · rw [filterChildren, if_neg hc, listDeepPaths_cons]
          simp only [itemDeepPaths, List.cons_append]
          exact ((filterChildren_deep_sublist V ks).trans
            (List.sublist_append_right _ _)).trans
            (List.sublist_cons_self p _)
end

mutual
theorem filterTop_paths_ok (V : List String) :
    ∀ (K : List Item) (q : String),
      q ∈ listDeepPaths (filterConfigToExisting K V) → q ≠ "" ∧ q ∈ V
  | [], q, hq => by rw [filterConfigToExisting] at hq; cases hq
  | k :: ks, q, hq => by
      cases k with
      | divider o =>
        rw [filterConfigToExisting, listDeepPaths_cons] at hq
        simp only [itemDeepPaths, List.nil_append] at hq
        exact filterTop_paths_ok V ks q hq
      | page p o pi =>
        by_cases hc : p ≠ "" ∧ p ∈ V
        · rw [filterConfigToExisting, if_pos hc, listDeepPaths_cons] at hq
          simp only [itemDeepPaths, List.singleton_append, List.mem_cons] at hq
          rcases hq with hq | hq
          · rw [hq]; exact hc
          · exact filterTop_paths_ok V ks q hq
        · rw [filterConfigToExisting, if_neg hc] at hq
          exact filterTop_paths_ok V ks q hq
      | folder p o pi kcs =>
        by_cases hc : p ≠ "" ∧ p ∈ V
        · rw [filterConfigToExisting, if_pos hc, listDeepPaths_cons] at hq
          simp only [itemDeepPaths, List.cons_append, List.mem_cons, List.mem_append] at hq
          rcases hq with hq | hq | hq
          · rw [hq]; exact hc
          · exact filterChildren_paths_ok V kcs q hq
          · exact filterTop_paths_ok V ks q hq
        · rw [filterConfigToExisting, if_neg hc] at hq
          exact filterTop_paths_ok V ks q hq

theorem filterChildren_paths_ok (V : List String) :
    ∀ (K : List Item) (q : String),
      q ∈ listDeepPaths (filterChildren K V) → q ≠ "" ∧ q ∈ V
  | [], q, hq => by rw [filterChildren] at hq; cases hq
  | k :: ks, q, hq => by
      cases k with
      | divider o =>
        rw [filterChildren] at hq
        exact filterChildren_paths_ok V ks q hq
      | page p o pi =>
        by_cases hc : p ≠ "" ∧ p ∈ V
        · rw [filterChildren, if_pos hc, listDeepPaths_cons] at hq
          simp only [itemDeepPaths, List.singleton_append, List.mem_cons] at hq
          rcases hq with hq | hq
          · rw [hq]; exact hc
          · exact filterChildren_paths_ok V ks q hq
        · rw [filterChildren, if_neg hc] at hq
          exact filterChildren_paths_ok V ks q hq
      | folder p o pi kcs =>
        by_cases hc : p ≠ "" ∧ p ∈ V
        · rw [filterChildren, if_pos hc, listDeepPaths_cons] at hq
          simp only [itemDeepPaths, List.cons_append, List.mem_cons, List.mem_append] at hq
          rcases hq with hq | hq | hq
          · rw [hq]; exact hc
          · exact filterTop_paths_ok V kcs q hq
          · exact filterChildren_paths_ok V ks q hq
        · rw [filterChildren, if_neg hc] at hq
          exact filterChildren_paths_ok V ks q hq
end

mutual
theorem filterTop_occ_preserved (V : List String) (hV : "" ∉ V) :
    ∀ (K C : List Item) (anc : List String) (e : POcc),
      alignedListB V C K = true → e ∈ fullOccsList anc K → e.path ∈ V →
      e ∈ fullOccsList anc (filterConfigToExisting K V)
  | [], _, anc, e, _, he, _ => by
      simp [fullOccsList] at he
  | k :: ks, C, anc, e, hAl, he, hin => by
      have hk : alignedItemB V C k = true ∧ alignedListB V C ks = true := by
        simpa [alignedListB, Bool.and_eq_true] using hAl
      rw [fullOccsList_cons] at he
      rcases List.mem_append.mp he with he1 | he2
      · cases k with
        | divider o => simp [fullOccsItem] at he1
        | page p o pi =>
          simp only [fullOccsItem, List.mem_singleton] at he1
          have hp : p ∈ V := by rw [he1] at hin; exact hin
          have hpne : p ≠ "" := fun hpe => hV (hpe ▸ hp)
          rw [filterConfigToExisting, if_pos ⟨hpne, hp⟩, fullOccsList_cons]
          apply List.mem_append.mpr
          left
          simp [fullOccsItem, he1]
        | folder p o pi kcs =>
          simp only [fullOccsItem, List.mem_cons] at he1
          rcases he1 with he1 | he1
          · have hp : p ∈ V := by rw [he1] at hin; exact hin
            have hpne : p ≠ "" := fun hpe => hV (hpe ▸ hp)
            rw [filterConfigToExisting, if_pos ⟨hpne, hp⟩, fullOccsList_cons]
            apply List.mem_append.mpr
            left
            simp [fullOccsItem, he1]
          · by_cases hp : p ∈ V
            · have hpne : p ≠ "" := fun hpe => hV (hpe ▸ hp)
              have h1 := hk.1
              simp only [alignedItemB, hp, if_pos] at h1
              rw [filterConfigToExisting, if_pos ⟨hpne, hp⟩, fullOccsList_cons]
              apply List.mem_append.mpr
              left
              simp only [fullOccsItem, List.mem_cons]
              right
              cases hf : findPF C p with
              | none => rw [hf] at h1; cases h1
              | some x =>
                cases x with
                | page a2 b2 c2 => rw [hf] at h1; cases h1
                | divider o2 => rw [hf] at h1; cases h1
                | folder a2 b2 c2 ccs =>
                  rw [hf] at h1
                  exact filterChildren_occ_preserved V hV kcs ccs (anc ++ [p]) e
                    (by simpa using h1) he1 hin
            · exfalso
              have h1 := hk.1
              simp only [alignedItemB, hp, if_neg, ite_false] at h1
              have hall : ∀ q ∈ listDeepPaths kcs, q ∉ V := by
                intro q hq
                have := List.all_eq_true.mp h1 q hq
                simpa using this
              apply hall e.path ?_ hin
              rw [listDeepPaths_eq_occs (anc ++ [p])]
              exact List.mem_map.mpr ⟨e, he1, rfl⟩
      · have hrec := filterTop_occ_preserved V hV ks C anc e hk.2 he2 hin
        cases k with
        | divider o =>
          rw [filterConfigToExisting, fullOccsList_cons]
          apply List.mem_append.mpr
          right
          exact hrec
        | page p o pi =>
          by_cases hc : p ≠ "" ∧ p ∈ V
          · rw [filterConfigToExisting, if_pos hc, fullOccsList_cons]
            exact List.mem_append.mpr (Or.inr hrec)
          · rw [filterConfigToExisting, if_neg hc]
            exact hrec
        | folder p o pi kcs =>
          by_cases hc : p ≠ "" ∧ p ∈ V
          · rw [filterConfigToExisting, if_pos hc, fullOccsList_cons]
            exact List.mem_append.mpr (Or.inr hrec)
          · rw [filterConfigToExisting, if_neg hc]
            exact hrec

theorem filterChildren_occ_preserved (V : List String) (hV : "" ∉ V) :
    ∀ (K C : List Item) (anc : List String) (e : POcc),
      alignedListB V C K = true → e ∈ fullOccsList anc K → e.path ∈ V →
      e ∈ fullOccsList anc (filterChildren K V)
  | [], _, anc, e, _, he, _ => by
      simp [fullOccsList] at he
  | k :: ks, C, anc, e, hAl, he, hin => by
      have hk : alignedItemB V C k = true ∧ alignedListB V C ks = true := by
        simpa [alignedListB, Bool.and_eq_true] using hAl
      rw [fullOccsList_cons] at he
      rcases List.mem_append.mp he with he1 | he2
      · cases k with
        | divider o => simp [fullOccsItem] at he1
        | page p o pi =>
          simp only [fullOccsItem, List.mem_singleton] at he1
          have hp : p ∈ V := by rw [he1] at hin; exact hin
          have hpne : p ≠ "" := fun hpe => hV (hpe ▸ hp)
          rw [filterChildren, if_pos ⟨hpne, hp⟩, fullOccsList_cons]
          apply List.mem_append.mpr
          left
          simp [fullOccsItem, he1]
        | folder p o pi kcs =>
          simp only [fullOccsItem, List.mem_cons] at he1
          rcases he1 with he1 | he1
          · have hp : p ∈ V := by rw [he1] at hin; exact hin
            have hpne : p ≠ "" := fun hpe => hV (hpe ▸ hp)
            rw [filterChildren, if_pos ⟨hpne, hp⟩, fullOccsList_cons]
            apply List.mem_append.mpr
            left
            simp [fullOccsItem, he1]
          · by_cases hp : p ∈ V
            · have hpne : p ≠ "" := fun hpe => hV (hpe ▸ hp)
              have h1 := hk.1
              simp only [alignedItemB, hp, if_pos] at h1
              rw [filterChildren, if_pos ⟨hpne, hp⟩, fullOccsList_cons]
              apply List.mem_append.mpr
              left
              simp only [fullOccsItem, List.mem_cons]
              right
              cases hf : findPF C p with
              | none => rw [hf] at h1; cases h1
              | some x =>
                cases x with
                | page a2 b2 c2 => rw [hf] at h1; cases h1
                | divider o2 => rw [hf] at h1; cases h1
                | folder a2 b2 c2 ccs =>
                  rw [hf] at h1
                  exact filterTop_occ_preserved V hV kcs ccs (anc ++ [p]) e
                    (by simpa using h1) he1 hin
            · exfalso
              have h1 := hk.1
              simp only [alignedItemB, hp, if_neg, ite_false] at h1
              have hall : ∀ q ∈ listDeepPaths kcs, q ∉ V := by
                intro q hq
                have := List.all_eq_true.mp h1 q hq
                simpa using this
              apply hall e.path ?_ hin
              rw [listDeepPaths_eq_occs (anc ++ [p])]
              exact List.mem_map.mpr ⟨e, he1, rfl⟩
      · have hrec := filterChildren_occ_preserved V hV ks C anc e hk.2 he2 hin
        cases k with
        | divider o =>
          rw [filterChildren]
          exact hrec
        | page p o pi =>
          by_cases hc : p ≠ "" ∧ p ∈ V
          · rw [filterChildren, if_pos hc, fullOccsList_cons]
            exact List.mem_append.mpr (Or.inr hrec)
          · rw [filterChildren, if_neg hc]
            exact hrec
        | folder p o pi kcs =>
          by_cases hc : p ≠ "" ∧ p ∈ V
          · rw [filterChildren, if_pos hc, fullOccsList_cons]
            exact List.mem_append.mpr (Or.inr hrec)
          · rw [filterChildren, if_neg hc]
            exact hrec
end

/-! ### Universal path soundness of the merge (no hypotheses): every page/folder
path of the merged output comes from the configured input or from an observed
valid path. -/

theorem lookupLast_spec {l : List Item} {p : String} {x : Item}
    (h : lookupLast l p = some x) :
    x ∈ l ∧ isDividerB x = false ∧ getItemPath x = p := by
  unfold lookupLast at h
  rcases foldl_lookupStep_pick p l none with h1 | ⟨c, hc1, hc2, hc3, hc4⟩
  · rw [h1] at h; cases h
  · rw [hc2] at h
    cases h
    exact ⟨hc1, hc3, hc4⟩

theorem validPathsList_append (l1 l2 : List Item) :
    validPathsList (l1 ++ l2) = validPathsList l1 ++ validPathsList l2 := by
  induction l1 with
  | nil => simp [validPathsList]
  | cons x xs ih => simp [validPathsList, ih]

theorem mem_validPaths_of_mem {c : Item} {C : List Item} (hc : c ∈ C)
    (hd : isDividerB c = false) (hp : getItemPath c ≠ "") :
    getItemPath c ∈ validPathsList C := by
  induction C with
  | nil => cases hc
  | cons y ys ih =>
    rcases List.mem_cons.mp hc with h1 | h2
    · subst h1
      simp only [validPathsList]
      apply List.mem_append.mpr
      left
      cases c with
      | divider o => simp [isDividerB] at hd
      | page p o pi =>
        simp only [getItemPath] at hp ⊢
        simp [validPathsItem, hp]
      | folder p o pi cs =>
        simp only [getItemPath] at hp ⊢
        simp [validPathsItem, hp]
    · simp only [validPathsList]
      exact List.mem_append.mpr (Or.inr (ih h2))

theorem validPaths_child_subset {p : String} {o : Int} {pi : Bool} {ccs C : List Item}
    (hmem : Item.folder p o pi ccs ∈ C) (hp : p ≠ "") :
    ∀ q ∈ validPathsList ccs, q ∈ validPathsList C := by
  induction C with
  | nil => cases hmem
  | cons y ys ih =>
    intro q hq
    rcases List.mem_cons.mp hmem with h1 | h2
    · simp only [validPathsList]
      apply List.mem_append.mpr
      left
      rw [← h1]
      simp [validPathsItem, hp]
      exact Or.inr hq
    · simp only [validPathsList]
      exact List.mem_append.mpr (Or.inr (ih h2 q hq))

theorem pathsSubsetAppendAux :
    ∀ (n : Nat) (pending : List Item), sizeOf pending ≤ n →
      ∀ (acc : List Item) (m : Int) (q : String),
        q ∈ listDeepPaths (mergeAppendWalk acc pending m).1 →
        q ∈ listDeepPaths acc ∨ q ∈ validPathsList pending := by
  intro n
  induction n with
  | zero =>
    intro pending h
    exact absurd h (by have := sizeOf_pos_list pending; omega)
  | succ k ih =>
    intro pending hsz acc m q hq
    cases pending with
    | nil =>
      rw [mergeAppendWalk_nil] at hq
      exact Or.inl hq
    | cons c cs =>
      have hszcs : sizeOf cs ≤ k := by simp at hsz; omega
      have hsubval : ∀ r ∈ validPathsList cs, r ∈ validPathsList (c :: cs) := by
        intro r hr
        have : validPathsList (c :: cs) = validPathsItem c ++ validPathsList cs := rfl
        rw [this]
        exact List.mem_append.mpr (Or.inr hr)
      by_cases hd : isDividerB c = true
      · rw [mergeAppendWalk_skip_divider acc cs m hd] at hq
        rcases ih cs hszcs acc m q hq with h | h
        · exact Or.inl h
        · exact Or.inr (hsubval q h)
      · have hd' : isDividerB c = false := by simpa using hd
        by_cases hpe : getItemPath c = ""
        · rw [mergeAppendWalk_skip_empty acc cs m hd' hpe] at hq
          rcases ih cs hszcs acc m q hq with h | h
          · exact Or.inl h
          · exact Or.inr (hsubval q h)
        · by_cases hseen : (acc.any (fun r => !isDividerB r && getItemPath r == getItemPath c)) = true
          · rw [mergeAppendWalk_skip_seen acc cs m hd' hpe hseen] at hq
            rcases ih cs hszcs acc m q hq with h | h
            · exact Or.inl h
            · exact Or.inr (hsubval q h)
          · have hseen' : (acc.any (fun r => !isDividerB r && getItemPath r == getItemPath c)) = false := by
              simpa using hseen
            cases c with
            | divider o => simp [isDividerB] at hd'
            | page p o pi =>
              have hpne2 : p ≠ "" := hpe
              have hseen2 : (acc.any (fun r => !isDividerB r && getItemPath r == p)) = false := hseen'
              rw [mergeAppendWalk_page p o pi acc cs m hpne2 hseen2] at hq
              rcases ih cs hszcs (acc ++ [Item.page p (m + 1) false]) (m + 1) q hq with h | h
              · rw [listDeepPaths_append] at h
                rcases List.mem_append.mp h with h2 | h2
                · exact Or.inl h2
                · simp only [listDeepPaths, itemDeepPaths, List.append_nil, List.mem_singleton] at h2
                  right
                  rw [h2]
                  have : validPathsList (Item.page p o pi :: cs) =
                      validPathsItem (Item.page p o pi) ++ validPathsList cs := rfl
                  rw [this]
                  apply List.mem_append.mpr
                  left
                  simp [validPathsItem, hpne2]
              · exact Or.inr (hsubval q h)
            | folder p o pi ccs =>
              have hpne2 : p ≠ "" := hpe
              have hseen2 : (acc.any (fun r => !isDividerB r && getItemPath r == p)) = false := hseen'
              have hsz_ccs : sizeOf ccs ≤ k := by simp at hsz; omega
              rw [mergeAppendWalk_folder p o pi ccs acc cs m hpne2 hseen2,
                mergeChildrenLists_nil_config] at hq
              have hvsub : ∀ r ∈ validPathsList ccs, r ∈ validPathsList (Item.folder p o pi ccs :: cs) := by
                intro r hr
                have : validPathsList (Item.folder p o pi ccs :: cs) =
                    validPathsItem (Item.folder p o pi ccs) ++ validPathsList cs := rfl
                rw [this]
                apply List.mem_append.mpr
                left
                simp only [validPathsItem, hpne2, ne_eq, not_false_iff, ite_true]
                exact List.mem_cons_of_mem p hr
              rcases ih cs hszcs
                (acc ++ [Item.folder p (m + 1) false (mergeAppendWalk [] ccs (m + 1)).1])
                (mergeAppendWalk [] ccs (m + 1)).2 q hq with h | h
              · rw [listDeepPaths_append] at h
                rcases List.mem_append.mp h with h2 | h2
                · exact Or.inl h2
                · simp only [listDeepPaths, itemDeepPaths, List.append_nil, List.mem_cons] at h2
                  rcases h2 with h3 | h3
                  · right
                    rw [h3]
                    have : validPathsList (Item.folder p o pi ccs :: cs) =
                        validPathsItem (Item.folder p o pi ccs) ++ validPathsList cs := rfl
                    rw [this]
                    apply List.mem_append.mpr
                    left
                    simp [validPathsItem, hpne2]
                  · rcases ih ccs hsz_ccs [] (m + 1) q h3 with h4 | h4
                    · simp [listDeepPaths] at h4
                    · exact Or.inr (hvsub q h4)
              · exact Or.inr (hsubval q h)

theorem pathsSubsetCWAux :
    ∀ (n : Nat) (C : List Item), sizeOf C ≤ n →
      ∀ (K : List Item) (m : Int) (q : String),
        q ∈ listDeepPaths (mergeConfigWalk K C m).1 →
        q ∈ listDeepPaths K ∨ q ∈ validPathsList C := by
  intro n
  induction n with
  | zero =>
    intro C h
    exact absurd h (by have := sizeOf_pos_list C; omega)
  | succ t ihC =>
    intro C hszC K
    induction K with
    | nil =>
      intro m q hq
      rw [mergeConfigWalk_nil] at hq
      simp [listDeepPaths] at hq
    | cons k ks ihK =>
      intro m q hq
      cases k with
      | divider o =>
        rw [mergeConfigWalk_divider] at hq
        rw [listDeepPaths_cons] at hq ⊢
        simp only [itemDeepPaths, List.nil_append] at hq ⊢
        exact ihK m q hq
      | page p o pi =>
        rw [mergeConfigWalk_page] at hq
        rw [listDeepPaths_cons] at hq ⊢
        simp only [itemDeepPaths, List.singleton_append, List.mem_cons] at hq ⊢
        rcases hq with h | h
        · exact Or.inl (Or.inl h)
        · rcases ihK m q h with h2 | h2
          · exact Or.inl (Or.inr h2)
          · exact Or.inr h2
      | folder p o pi kcs =>
        by_cases hp : p = ""
        · subst hp
          have heq : mergeConfigWalk (Item.folder "" o pi kcs :: ks) C m =
              mergeConfigWalk ks C m := by
            rw [mergeConfigWalk]
            simp
          rw [heq] at hq
          rcases ihK m q hq with h | h
          · left
            rw [listDeepPaths_cons]
            exact List.mem_append.mpr (Or.inr h)
          · exact Or.inr h
        · cases hl : lookupLast C p with
          | some x =>
            cases x with
            | folder a2 b2 c2 ccs =>
              rcases lookupLast_spec hl with ⟨hxmem, _, hxpath⟩
              simp only [getItemPath] at hxpath
              have hszccs : sizeOf ccs ≤ t := by
                have h1 := sizeOf_lt_of_mem_items hxmem
                simp only [Item.folder.sizeOf_spec] at h1
                omega
              rw [mergeConfigWalk_folder_found p o pi kcs ks C m hp hl] at hq
              rw [listDeepPaths_cons] at hq
              simp only [itemDeepPaths, List.cons_append, List.mem_cons,
                List.mem_append] at hq
              rcases hq with h | h | h
              · left
                rw [listDeepPaths_cons]
                simp [itemDeepPaths, h]
              · -- inside the recursively merged children
                rw [mergeChildrenLists_eq] at h
                rcases pathsSubsetAppendAux (sizeOf ccs) ccs le_rfl
                  (mergeConfigWalk kcs ccs m).1 (mergeConfigWalk kcs ccs m).2 q h with h2 | h2
                · rcases ihC ccs hszccs kcs m q h2 with h3 | h3
                  · left
                    rw [listDeepPaths_cons]
                    simp only [itemDeepPaths, List.cons_append, List.mem_cons, List.mem_append]
                    exact Or.inr (Or.inl h3)
                  · right
                    exact validPaths_child_subset (hxpath ▸ hxmem) hp q h3
                · right
                  exact validPaths_child_subset (hxpath ▸ hxmem) hp q h2
              · rcases ihK (mergeChildrenLists kcs ccs m).2 q h with h2 | h2
                · left
                  rw [listDeepPaths_cons]
                  simp only [itemDeepPaths, List.cons_append, List.mem_cons, List.mem_append]
                  exact Or.inr (Or.inr h2)
                · exact Or.inr h2
            | page a2 b2 c2 =>
              rw [mergeConfigWalk_folder_keep p o pi kcs ks C m hp
                (by intro a b c ccs2 hcon; rw [hl] at hcon; cases hcon)] at hq
              rw [listDeepPaths_cons] at hq ⊢
              simp only [itemDeepPaths, List.cons_append, List.mem_cons,
                List.mem_append] at hq ⊢
              rcases hq with h | h | h
              · exact Or.inl (Or.inl h)
              · exact Or.inl (Or.inr (Or.inl h))
              · rcases ihK m q h with h2 | h2
                · exact Or.inl (Or.inr (Or.inr h2))
                · exact Or.inr h2
            | divider o2 =>
              rw [mergeConfigWalk_folder_keep p o pi kcs ks C m hp
                (by intro a b c ccs2 hcon; rw [hl] at hcon; cases hcon)] at hq
              rw [listDeepPaths_cons] at hq ⊢
              simp only [itemDeepPaths, List.cons_append, List.mem_cons,
                List.mem_append] at hq ⊢
              rcases hq with h | h | h
              · exact Or.inl (Or.inl h)
              · exact Or.inl (Or.inr (Or.inl h))
              · rcases ihK m q h with h2 | h2
                · exact Or.inl (Or.inr (Or.inr h2))
                · exact Or.inr h2
          | none =>
            rw [mergeConfigWalk_folder_keep p o pi kcs ks C m hp
              (by intro a b c ccs2 hcon; rw [hl] at hcon; cases hcon)] at hq
            rw [listDeepPaths_cons] at hq ⊢
            simp only [itemDeepPaths, List.cons_append, List.mem_cons,
              List.mem_append] at hq ⊢
            rcases hq with h | h | h
            · exact Or.inl (Or.inl h)
            · exact Or.inl (Or.inr (Or.inl h))
            · rcases ihK m q h with h2 | h2
              · exact Or.inl (Or.inr (Or.inr h2))
              · exact Or.inr h2

theorem pathsSubsetMC (K C : List Item) (m : Int) (q : String)
    (hq : q ∈ listDeepPaths (mergeChildrenLists K C m).1) :
    q ∈ listDeepPaths K ∨ q ∈ validPathsList C := by
  rw [mergeChildrenLists_eq] at hq
  rcases pathsSubsetAppendAux (sizeOf C) C le_rfl
    (mergeConfigWalk K C m).1 (mergeConfigWalk K C m).2 q hq with h | h
  · exact pathsSubsetCWAux (sizeOf C) C le_rfl K m q h
  · exact Or.inr h

/-! ### Central reconciliation theorem under alignment -/

theorem sort_deepPaths_perm (l : List Item) (b : Bool) :
    List.Perm (listDeepPaths (sortToDisplayOrder l b)) (listDeepPaths l) := by
  rw [listDeepPaths_eq_occs [], listDeepPaths_eq_occs ([] : List String)]
  exact (fullOccs_sortToDisplayOrder_perm [] l b).map POcc.path

mutual
theorem validPathsItem_subset_deep :
    ∀ (x : Item) (q : String), q ∈ validPathsItem x → q ∈ itemDeepPaths x
  | .divider _, q, hq => by simp [validPathsItem] at hq
  | .page p _ _, q, hq => by
      simp only [validPathsItem] at hq
      by_cases hp : p = ""
      · simp [hp] at hq
      · simp only [hp, ne_eq, not_false_iff, ite_true, List.mem_singleton] at hq
        simp [itemDeepPaths, hq]
  | .folder p _ _ cs, q, hq => by
      simp only [validPathsItem] at hq
      by_cases hp : p = ""
      · simp [hp] at hq
      · simp only [hp, ne_eq, not_false_iff, ite_true, List.mem_cons] at hq
        simp only [itemDeepPaths, List.mem_cons]
        rcases hq with h | h
        · exact Or.inl h
        · exact Or.inr (validPathsList_subset_deep cs q h)

theorem validPathsList_subset_deep :
    ∀ (l : List Item) (q : String), q ∈ validPathsList l → q ∈ listDeepPaths l
  | [], q, hq => by simp [validPathsList] at hq
  | x :: xs, q, hq => by
      have hsplit : validPathsList (x :: xs) = validPathsItem x ++ validPathsList xs := rfl
      rw [hsplit] at hq
      rw [listDeepPaths_cons]
      rcases List.mem_append.mp hq with h | h
      · exact List.mem_append.mpr (Or.inl (validPathsItem_subset_deep x q h))
      · exact List.mem_append.mpr (Or.inr (validPathsList_subset_deep xs q h))
end

mutual
theorem empty_not_mem_validPathsItem :
    ∀ (x : Item), "" ∉ validPathsItem x
  | .divider _ => by simp [validPathsItem]
  | .page p _ _ => by
      by_cases hp : p = ""
      · simp [validPathsItem, hp]
      · simp [validPathsItem, hp]
        intro hcon
        exact hp hcon.symm
  | .folder p _ _ cs => by
      by_cases hp : p = ""
      · simp [validPathsItem, hp]
      · simp only [validPathsItem, hp, ne_eq, not_false_iff, ite_true, List.mem_cons]
        rintro (h | h)
        · exact hp h.symm
        · exact empty_not_mem_validPathsList cs h

theorem empty_not_mem_validPathsList :
    ∀ (l : List Item), "" ∉ validPathsList l
  | [] => by simp [validPathsList]
  | x :: xs => by
      have hsplit : validPathsList (x :: xs) = validPathsItem x ++ validPathsList xs := rfl
      rw [hsplit]
      intro h
      rcases List.mem_append.mp h with h | h
      · exact empty_not_mem_validPathsItem x h
      · exact empty_not_mem_validPathsList xs h
end

theorem mergeSidebar_eq (content config : List Item) :
    mergeSidebarWithContent content config =
      sortToDisplayOrder
        (mergeChildrenLists
          (filterConfigToExisting config (getValidPathsFromContentStructure content))
          content
          (getMaxOrderInStructure
            (filterConfigToExisting config (getValidPathsFromContentStructure content)))).1
        true := rfl

theorem mergeSidebar_master (content config : List Item)
    (hndC : (listDeepPaths content).Nodup)
    (hneC : ∀ q ∈ listDeepPaths content, q ≠ "")
    (hndK : (listDeepPaths config).Nodup)
    (hAl : alignedListB (getValidPathsFromContentStructure content) content config = true) :
    ∃ A : List POcc,
      List.Perm (fullOccsList [] (mergeSidebarWithContent content config))
        (fullOccsList []
          (filterConfigToExisting config (getValidPathsFromContentStructure content)) ++ A) ∧
      List.Perm ((fullOccsList [] (mergeSidebarWithContent content config)).map locOf)
        ((fullOccsList [] content).map locOf) ∧
      (∀ e ∈ A, e.pinned = false) ∧
      A.map POcc.ord = consecInts
        (getMaxOrderInStructure
          (filterConfigToExisting config (getValidPathsFromContentStructure content)))
        A.length := by
  have hMC := masterMC
    (filterConfigToExisting config (getValidPathsFromContentStructure content)) content
    (getMaxOrderInStructure
      (filterConfigToExisting config (getValidPathsFromContentStructure content)))
  rcases hMC [] (alignedFilterTop _ content config hAl)
    (hndK.sublist (filterTop_deep_sublist _ config))
    (fun q hq => (filterTop_paths_ok _ config q hq).1)
    hndC hneC with ⟨A, a1, b1, c1, _, e1⟩
  refine ⟨A, ?_, ?_, c1, e1⟩
  · rw [mergeSidebar_eq]
    exact (fullOccs_sortToDisplayOrder_perm [] _ true).trans a1
  · rw [mergeSidebar_eq]
    exact (((fullOccs_sortToDisplayOrder_perm [] _ true).map locOf).trans b1)

/-! ### Claim theorems: reconciliation -/

theorem filter_fst_singleton :
    ∀ (L : List (String × List String)) (p : String),
      (L.map Prod.fst).Nodup → p ∈ L.map Prod.fst →
      ∃ anc, L.filter (fun e => e.1 == p) = [(p, anc)] := by
  intro L
  induction L with
  | nil => intro p _ hp; simp at hp
  | cons a rest ih =>
    intro p hnd hp
    rw [List.map_cons, List.nodup_cons] at hnd
    rw [List.map_cons, List.mem_cons] at hp
    rcases hp with hp | hp
    · refine ⟨a.2, ?_⟩
      rw [List.filter_cons]
      have hcond : (a.1 == p) = true := by simp [hp]
      rw [hcond, if_pos rfl]
      have hrest : rest.filter (fun e => e.1 == p) = [] := by
        rw [List.filter_eq_nil_iff]
        intro e he hcon
        apply hnd.1
        simp only [beq_iff_eq] at hcon
        rw [← hp, ← hcon]
        exact List.mem_map.mpr ⟨e, he, rfl⟩
      rw [hrest, hp]
    · have hne2 : (a.1 == p) = false := by
        apply beq_eq_false_iff_ne.mpr
        intro hcon
        exact hnd.1 (hcon ▸ hp)
      rcases ih p hnd.2 hp with ⟨anc, hanc⟩
      refine ⟨anc, ?_⟩
      rw [List.filter_cons, hne2]
      simpa using hanc

theorem content_locs_fst (content : List Item) :
    ((fullOccsList [] content).map locOf).map Prod.fst = listDeepPaths content := by
  rw [listDeepPaths_eq_occs ([] : List String), List.map_map]
  rfl

/-- C2 (confirmed). No-ghosts: a path that appears in the configured structure
but does not exist in the observed content structure never appears anywhere in
the tree produced by `mergeSidebarWithContent`. (Proved without the membership
hypothesis on the configured structure being needed: no path outside the
observed valid paths ever survives.) -/
theorem claim_C2_no_ghosts (content config : List Item) (p : String)
    (hcfg : p ∈ listDeepPaths config)
    (hp : p ∉ getValidPathsFromContentStructure content) :
    p ∉ listDeepPaths (mergeSidebarWithContent content config) := by
  intro hq
  rw [mergeSidebar_eq] at hq
  have hq2 := (sort_deepPaths_perm _ true).mem_iff.mp hq
  rcases pathsSubsetMC _ _ _ p hq2 with h | h
  · exact hp (filterTop_paths_ok _ config p h).2
  · exact hp h

/-- Witness for C2 at a concrete input: configured page `b` does not exist in
the observed content, and indeed does not survive reconciliation. -/
theorem claim_C2_no_ghosts_witness :
    ("b" ∈ listDeepPaths [Item.page "b" 2 true]) ∧
    ("b" ∉ getValidPathsFromContentStructure [Item.page "a" 1 false]) ∧
    ("b" ∉ listDeepPaths
      (mergeSidebarWithContent [Item.page "a" 1 false] [Item.page "b" 2 true])) :=
  ⟨by decide, by decide,
    claim_C2_no_ghosts [Item.page "a" 1 false] [Item.page "b" 2 true] "b"
      (by decide) (by decide)⟩

/-- C1 as stated is false: the observed page `f/x` sits inside folder `f`, the
configured structure has a page (not a folder) at path `f`, and reconciliation
then produces no node at all for `f/x`: the configured page `f` consumes the
path, its subtree is never opened, and the append walk skips the observed
folder `f` because a node with that path already exists at the level. -/
theorem claim_C1_counterexample :
    ("f/x" ∈ listDeepPaths [Item.folder "f" 1 false [Item.page "f/x" 1 false]]) ∧
    mergeSidebarWithContent [Item.folder "f" 1 false [Item.page "f/x" 1 false]]
      [Item.page "f" 1 false] = [Item.page "f" 1 false] ∧
    ("f/x" ∉ listDeepPaths [Item.page "f" 1 false]) := by
  refine ⟨by decide, ?_, by decide⟩
  simp [mergeSidebarWithContent, getValidPathsFromContentStructure, validPathsList,
    validPathsItem, filterConfigToExisting, getMaxOrderInStructure, maxOrderItem,
    mergeChildrenLists, mergeConfigWalk, mergeAppendWalk, lookupLast, lookupStep,
    getItemPath, isDividerB, sortToDisplayOrder, sortSteps, sortStep, stableSortBy,
    insertBy, zoneSort, isPinned, ltOrder, ltPath, getOrder]

/-- C1 (corrected). Completeness of reconciliation, under alignment: when the
deep paths of the observed structure are nonempty and duplicate-free, the
configured deep paths are duplicate-free, and the configured structure is
aligned with the observed one (every retained configured path points at an
observed node of the same kind at the same level, recursively), then every
observed page/folder path occurs exactly once in the output of
`mergeSidebarWithContent`, under the same chain of ancestor folders as in the
observed structure. -/
theorem claim_C1_completeness (content config : List Item)
    (hndC : (listDeepPaths content).Nodup)
    (hneC : ∀ q ∈ listDeepPaths content, q ≠ "")
    (hndK : (listDeepPaths config).Nodup)
    (hAl : alignedListB (getValidPathsFromContentStructure content) content config = true)
    (p : String) (hp : p ∈ listDeepPaths content) :
    ∃ anc : List String,
      ((fullOccsList [] content).map locOf).filter (fun e => e.1 == p) = [(p, anc)] ∧
      ((fullOccsList [] (mergeSidebarWithContent content config)).map locOf).filter
        (fun e => e.1 == p) = [(p, anc)] := by
  obtain ⟨A, hA1, hA2, hA3, hA4⟩ := mergeSidebar_master content config hndC hneC hndK hAl
  have hfst := content_locs_fst content
  have hmem : p ∈ ((fullOccsList [] content).map locOf).map Prod.fst := by
    rw [hfst]; exact hp
  have hnd2 : (((fullOccsList [] content).map locOf).map Prod.fst).Nodup := by
    rw [hfst]; exact hndC
  obtain ⟨anc, hanc⟩ := filter_fst_singleton _ p hnd2 hmem
  refine ⟨anc, hanc, ?_⟩
  have hperm := hA2.filter (fun e => e.1 == p)
  rw [hanc] at hperm
  exact List.perm_singleton.mp hperm

/-- Witness for C1 at a concrete aligned input: the page `f/x` inside folder
`f` occurs exactly once, under ancestor chain `[f]`, in the reconciled tree. -/
theorem claim_C1_completeness_witness :
    ∃ anc : List String,
      ((fullOccsList [] [Item.folder "f" 1 false [Item.page "f/x" 2 false]]).map
        locOf).filter (fun e => e.1 == "f/x") = [("f/x", anc)] ∧
      ((fullOccsList []
        (mergeSidebarWithContent [Item.folder "f" 1 false [Item.page "f/x" 2 false]]
          [Item.folder "f" 3 true [Item.page "f/x" 5 true]])).map locOf).filter
        (fun e => e.1 == "f/x") = [("f/x", anc)] :=
  claim_C1_completeness [Item.folder "f" 1 false [Item.page "f/x" 2 false]]
    [Item.folder "f" 3 true [Item.page "f/x" 5 true]]
    (by decide) (by decide) (by decide) (by decide) "f/x" (by decide)

theorem getOrder_normalizeOne (o : Int) (x : Item) : getOrder (normalizeOne o x) = o := by
  cases x <;> simp [normalizeOne, getOrder]

theorem normalizeOrdersFrom_map_getOrder :
    ∀ (l : List Item) (o : Int),
      (normalizeOrdersFrom o l).map getOrder = consecInts (o - 1) l.length
  | [], o => by simp [normalizeOrdersFrom, consecInts]
  | x :: rest, o => by
    rw [normalizeOrdersFrom, List.map_cons, getOrder_normalizeOne,
      normalizeOrdersFrom_map_getOrder rest (o + 1), List.length_cons]
    show o :: consecInts (o + 1 - 1) rest.length = consecInts (o - 1) (rest.length + 1)
    rw [consecInts]
    have h1 : o - 1 + 1 = o := by omega
    have h2 : o + 1 - 1 = o - 1 + 1 := by omega
    rw [h1, h2, h1]

/-- C4 as stated is false: the configured page `g/p` (order 5, pinned) sits
inside configured folder `g`, but the observed structure has `g/p` at the root
with no folder `g`; the filter pass drops folder `g` with its whole subtree,
and `g/p` — present in both structures — is re-appended with a fresh order and
`pinned = false`, losing both customizations. -/
theorem claim_C4_counterexample :
    ("g/p" ∈ listDeepPaths [Item.folder "g" 1 false [Item.page "g/p" 5 true]]) ∧
    ("g/p" ∈ listDeepPaths [Item.page "g/p" 1 false]) ∧
    mergeSidebarWithContent [Item.page "g/p" 1 false]
      [Item.folder "g" 1 false [Item.page "g/p" 5 true]] = [Item.page "g/p" 1 false] := by
  refine ⟨by decide, by decide, ?_⟩
  simp [mergeSidebarWithContent, getValidPathsFromContentStructure, validPathsList,
    validPathsItem, filterConfigToExisting, getMaxOrderInStructure, maxOrderItem,
    mergeChildrenLists, mergeConfigWalk, mergeAppendWalk, lookupLast, lookupStep,
    getItemPath, isDividerB, sortToDisplayOrder, sortSteps, sortStep, stableSortBy,
    insertBy, zoneSort, isPinned, ltOrder, ltPath, getOrder]

/-- C4 (corrected). Customization preservation holds under alignment: with
duplicate-free nonempty observed deep paths, duplicate-free configured deep
paths, and the configured structure aligned with the observed one, every
configured page/folder occurrence whose path exists in the observed structure
survives `mergeSidebarWithContent` with its `order`, `pinned` flag, kind and
ancestor chain unchanged; and dense renumbering to 1..N per level is exactly
what the separate, explicitly invoked `normalizeOrders` pass performs. -/
theorem claim_C4_preservation (content config : List Item)
    (hndC : (listDeepPaths content).Nodup)
    (hneC : ∀ q ∈ listDeepPaths content, q ≠ "")
    (hndK : (listDeepPaths config).Nodup)
    (hAl : alignedListB (getValidPathsFromContentStructure content) content config = true)
    (e : POcc) (he : e ∈ fullOccsList [] config)
    (hv : e.path ∈ getValidPathsFromContentStructure content) :
    e ∈ fullOccsList [] (mergeSidebarWithContent content config) ∧
    (∀ l : List Item, (normalizeOrders l).map getOrder = consecInts 0 l.length) := by
  constructor
  · obtain ⟨A, hA1, hA2, hA3, hA4⟩ := mergeSidebar_master content config hndC hneC hndK hAl
    have hV : "" ∉ getValidPathsFromContentStructure content :=
      empty_not_mem_validPathsList content
    have hfil := filterTop_occ_preserved _ hV config content [] e hAl he hv
    exact hA1.mem_iff.mpr (List.mem_append.mpr (Or.inl hfil))
  · intro l
    have h := normalizeOrdersFrom_map_getOrder l 1
    simpa [normalizeOrders] using h

/-- Witness for C4 at a concrete aligned input: the configured pinned page `a`
with order 4 keeps exactly that decoration through reconciliation. -/
theorem claim_C4_preservation_witness :
    (⟨"a", [], 4, true, false⟩ : POcc) ∈ fullOccsList []
      (mergeSidebarWithContent [Item.page "a" 1 false, Item.page "b" 2 false]
        [Item.page "a" 4 true]) ∧
    (∀ l : List Item, (normalizeOrders l).map getOrder = consecInts 0 l.length) :=
  claim_C4_preservation [Item.page "a" 1 false, Item.page "b" 2 false]
    [Item.page "a" 4 true] (by decide) (by decide) (by decide) (by decide)
    ⟨"a", [], 4, true, false⟩ (by decide) (by decide)

/-- C5 as stated is false: the observed page `g/y` sits inside observed folder
`g`, the configured structure has a page at path `g`, and the append walk skips
the observed folder `g` (a node with that path already exists at the level), so
no node for `g/y` is ever appended even though `g/y` is absent from the
configured structure. -/
theorem claim_C5_counterexample :
    ("g/y" ∈ listDeepPaths [Item.folder "g" 1 false [Item.page "g/y" 1 false]]) ∧
    ("g/y" ∉ listDeepPaths [Item.page "g" 7 true]) ∧
    mergeSidebarWithContent [Item.folder "g" 1 false [Item.page "g/y" 1 false]]
      [Item.page "g" 7 true] = [Item.page "g" 7 true] ∧
    ("g/y" ∉ listDeepPaths [Item.page "g" 7 true]) := by
  refine ⟨by decide, by decide, ?_, by decide⟩
  simp [mergeSidebarWithContent, getValidPathsFromContentStructure, validPathsList,
    validPathsItem, filterConfigToExisting, getMaxOrderInStructure, maxOrderItem,
    mergeChildrenLists, mergeConfigWalk, mergeAppendWalk, lookupLast, lookupStep,
    getItemPath, isDividerB, sortToDisplayOrder, sortSteps, sortStep, stableSortBy,
    insertBy, zoneSort, isPinned, ltOrder, ltPath, getOrder]

/-- C5 (corrected). Append-on-discovery holds under alignment: with
duplicate-free nonempty observed deep paths, duplicate-free configured deep
paths, and the configured structure aligned with the observed one, the output
occurrences of `mergeSidebarWithContent` are exactly the occurrences of the
filtered configured structure plus a list `A` of appended occurrences; `A`
fills precisely the observed locations missing from the filtered configured
structure (the two location multisets together are the observed one), every
appended node is unpinned, and the appended orders are the consecutive integers
starting right after the maximum order of the filtered configured structure. -/
theorem claim_C5_append (content config : List Item)
    (hndC : (listDeepPaths content).Nodup)
    (hneC : ∀ q ∈ listDeepPaths content, q ≠ "")
    (hndK : (listDeepPaths config).Nodup)
    (hAl : alignedListB (getValidPathsFromContentStructure content) content config = true) :
    ∃ A : List POcc,
      List.Perm (fullOccsList [] (mergeSidebarWithContent content config))
        (fullOccsList []
          (filterConfigToExisting config (getValidPathsFromContentStructure content)) ++ A) ∧
      List.Perm
        ((fullOccsList []
          (filterConfigToExisting config
            (getValidPathsFromContentStructure content))).map locOf ++ A.map locOf)
        ((fullOccsList [] content).map locOf) ∧
      (∀ e ∈ A, e.pinned = false) ∧
      A.map POcc.ord = consecInts
        (getMaxOrderInStructure
          (filterConfigToExisting config (getValidPathsFromContentStructure content)))
        A.length := by
  obtain ⟨A, hA1, hA2, hA3, hA4⟩ := mergeSidebar_master content config hndC hneC hndK hAl
  refine ⟨A, hA1, ?_, hA3, hA4⟩
  have h2 := hA1.map locOf
  rw [List.map_append] at h2
  exact h2.symm.trans hA2

/-- Witness for C5 at a concrete aligned input: configured `[a]` against
observed `[a, b]` yields an appended occurrence list with the stated shape. -/
theorem claim_C5_append_witness :
    ∃ A : List POcc,
      List.Perm (fullOccsList []
          (mergeSidebarWithContent [Item.page "a" 2 false, Item.page "b" 1 false]
            [Item.page "a" 9 true]))
        (fullOccsList []
          (filterConfigToExisting [Item.page "a" 9 true]
            (getValidPathsFromContentStructure
              [Item.page "a" 2 false, Item.page "b" 1 false])) ++ A) ∧
      List.Perm
        ((fullOccsList []
          (filterConfigToExisting [Item.page "a" 9 true]
            (getValidPathsFromContentStructure
              [Item.page "a" 2 false, Item.page "b" 1 false]))).map locOf ++
          A.map locOf)
        ((fullOccsList [] [Item.page "a" 2 false, Item.page "b" 1 false]).map locOf) ∧
      (∀ e ∈ A, e.pinned = false) ∧
      A.map POcc.ord = consecInts
        (getMaxOrderInStructure
          (filterConfigToExisting [Item.page "a" 9 true]
            (getValidPathsFromContentStructure
              [Item.page "a" 2 false, Item.page "b" 1 false])))
        A.length :=
  claim_C5_append [Item.page "a" 2 false, Item.page "b" 1 false] [Item.page "a" 9 true]
    (by decide) (by decide) (by decide) (by decide)

/-- C3 exhibits a code bug: `filterConfigToExisting` keeps dividers in the list
it is called on, but the recursive filter applied to a folder's children keeps
only pages and folders, so a divider nested one level down is dropped even
though the enclosing folder exists in the observed structure; the reconciled
tree loses it entirely. -/
theorem claim_C3_divider_dropped :
    filterConfigToExisting [Item.folder "f" 1 false [Item.divider none]]
      (getValidPathsFromContentStructure [Item.folder "f" 1 false []]) =
      [Item.folder "f" 1 false []] ∧
    mergeSidebarWithContent [Item.folder "f" 1 false []]
      [Item.folder "f" 1 false [Item.divider none]] = [Item.folder "f" 1 false []] := by
  constructor
  · simp [filterConfigToExisting, filterChildren, getValidPathsFromContentStructure,
      validPathsList, validPathsItem]
  · simp [mergeSidebarWithContent, getValidPathsFromContentStructure, validPathsList,
      validPathsItem, filterConfigToExisting, filterChildren, getMaxOrderInStructure,
      maxOrderItem, mergeChildrenLists, mergeConfigWalk, mergeAppendWalk, lookupLast,
      lookupStep, getItemPath, isDividerB, sortToDisplayOrder, sortSteps, sortStep,
      stableSortBy, insertBy, zoneSort, isPinned, ltOrder, ltPath, getOrder]

/-- C8 as stated is false: an unparsable or wrongly shaped persisted document
makes the GET handler return a 500 error response with no `structure` field,
which differs from the successful empty-structure response returned when the
document is missing (fetch throws with status 404). -/
theorem claim_C8_counterexample :
    sidebarConfigGET (.fileContent .unparsable) =
      ({ status := 500, structureField := none, hasErrorField := true } : GetResponse) ∧
    sidebarConfigGET (.fileContent .wrongShape) =
      ({ status := 500, structureField := none, hasErrorField := true } : GetResponse) ∧
    sidebarConfigGET (.thrown (some 404)) =
      ({ status := 200, structureField := some [], hasErrorField := true } : GetResponse) ∧
    sidebarConfigGET (.fileContent .unparsable) ≠ sidebarConfigGET (.thrown (some 404)) := by
  decide

/-- C8 (corrected). Corrupt documents are an error, not a silent reset: parse
failures and wrong-shape documents yield a 500 response carrying no structure,
while only the missing-file case (fetch throws with status 404) yields the
successful empty-structure response; any other thrown status is also a 500. -/
theorem claim_C8_corrupt_is_error :
    sidebarConfigGET (.fileContent .unparsable) =
      ({ status := 500, structureField := none, hasErrorField := true } : GetResponse) ∧
    sidebarConfigGET (.fileContent .wrongShape) =
      ({ status := 500, structureField := none, hasErrorField := true } : GetResponse) ∧
    sidebarConfigGET (.thrown (some 404)) =
      ({ status := 200, structureField := some [], hasErrorField := true } : GetResponse) ∧
    sidebarConfigGET (.thrown none) =
      ({ status := 500, structureField := none, hasErrorField := true } : GetResponse) ∧
    sidebarConfigGET .dirData =
      ({ status := 500, structureField := none, hasErrorField := true } : GetResponse) ∧
    sidebarConfigGET .noContent =
      ({ status := 500, structureField := none, hasErrorField := true } : GetResponse) := by
  decide

/-! Commutation of the recursion step with the sibling-level sorts: `sortStep`
changes no path, order, pinned flag or node type, so sorting before or after
descending into the folders gives the same list. This recovers the literal
source shape of `sortToDisplayOrder` (sort the siblings, then map the
recursion over the result). -/

theorem insertBy_sortStep (lt : Item → Item → Bool)
    (hlt : ∀ a b, lt (sortStep a) (sortStep b) = lt a b) (x : Item) (l : List Item) :
    insertBy lt (sortStep x) (sortSteps l) = sortSteps (insertBy lt x l) := by
  induction l with
  | nil => rfl
  | cons y ys ih =>
    show insertBy lt (sortStep x) (sortStep y :: sortSteps ys) = _
    rw [insertBy, hlt]
    by_cases h : lt y x = true
    · rw [if_pos h, ih, insertBy, if_pos h]
      rfl
    · rw [if_neg h, insertBy, if_neg h]
      rfl

theorem stableSortBy_sortSteps (lt : Item → Item → Bool)
    (hlt : ∀ a b, lt (sortStep a) (sortStep b) = lt a b) (l : List Item) :
    stableSortBy lt (sortSteps l) = sortSteps (stableSortBy lt l) := by
  induction l with
  | nil => rfl
  | cons x xs ih =>
    show stableSortBy lt (sortStep x :: sortSteps xs) = _
    rw [stableSortBy_cons, ih, insertBy_sortStep lt hlt, ← stableSortBy_cons]

theorem filter_sortSteps (p : Item → Bool) (hp : ∀ x, p (sortStep x) = p x)
    (l : List Item) : (sortSteps l).filter p = sortSteps (l.filter p) := by
  induction l with
  | nil => rfl
  | cons x xs ih =>
    show (sortStep x :: sortSteps xs).filter p = sortSteps ((x :: xs).filter p)
    rw [List.filter_cons, List.filter_cons, hp]
    by_cases h : p x = true
    · rw [if_pos h, if_pos h, ih]
      rfl
    · rw [if_neg h, if_neg h, ih]

theorem ltOrder_sortStep (a b : Item) : ltOrder (sortStep a) (sortStep b) = ltOrder a b := by
  simp [ltOrder, getOrder_sortStep]

theorem ltPath_sortStep (a b : Item) : ltPath (sortStep a) (sortStep b) = ltPath a b := by
  simp [ltPath, getItemPath_sortStep]

theorem zoneSort_sortSteps (l : List Item) :
    zoneSort (sortSteps l) = sortSteps (zoneSort l) := by
  show stableSortBy ltOrder ((sortSteps l).filter (fun i => !isDividerB i && isPinned i)) ++
      stableSortBy ltOrder ((sortSteps l).filter (fun i => isDividerB i)) ++
      stableSortBy ltPath ((sortSteps l).filter (fun i => !isDividerB i && !isPinned i)) =
    sortSteps (stableSortBy ltOrder (l.filter (fun i => !isDividerB i && isPinned i)) ++
      stableSortBy ltOrder (l.filter (fun i => isDividerB i)) ++
      stableSortBy ltPath (l.filter (fun i => !isDividerB i && !isPinned i)))
  rw [filter_sortSteps _ (fun x => by simp [isDividerB_sortStep, isPinned_sortStep]),
    filter_sortSteps _ (fun x => by simp [isDividerB_sortStep]),
    filter_sortSteps _ (fun x => by simp [isDividerB_sortStep, isPinned_sortStep]),
    stableSortBy_sortSteps _ ltOrder_sortStep, stableSortBy_sortSteps _ ltOrder_sortStep,
    stableSortBy_sortSteps _ ltPath_sortStep, sortSteps_append, sortSteps_append]

theorem sortStep_eq_source_step (a : Item) :
    sortStep a = (match a with
      | Item.folder p o pi cs => Item.folder p o pi (sortToDisplayOrder cs false)
      | x => x) := by
  cases a with
  | page p o pi => rfl
  | divider o => rfl
  | folder p o pi cs =>
    show Item.folder p o pi (zoneSort (sortSteps cs)) =
      Item.folder p o pi (sortSteps (zoneSort cs))
    rw [zoneSort_sortSteps]

/-! Sortedness of the insertion sort under a key-based comparator: the output
is pairwise nondecreasing in the key. -/

theorem ltOrder_le_of_true {a b : Item} (h : ltOrder a b = true) :
    getOrder a ≤ getOrder b :=
  le_of_lt (by simpa [ltOrder] using h)

theorem ltOrder_le_of_false {a b : Item} (h : ltOrder a b = false) :
    getOrder b ≤ getOrder a := by
  simp only [ltOrder, decide_eq_false_iff_not] at h
  exact le_of_not_lt h

theorem ltPath_le_of_true {a b : Item} (h : ltPath a b = true) :
    (getItemPath a).toLower ≤ (getItemPath b).toLower :=
  le_of_lt (by simpa [ltPath] using h)

theorem ltPath_le_of_false {a b : Item} (h : ltPath a b = false) :
    (getItemPath b).toLower ≤ (getItemPath a).toLower := by
  simp only [ltPath, decide_eq_false_iff_not] at h
  exact le_of_not_lt h

theorem pairwise_insertBy {α : Type} [LinearOrder α] (k : Item → α)
    (lt : Item → Item → Bool)
    (h1 : ∀ a b, lt a b = true → k a ≤ k b)
    (h2 : ∀ a b, lt a b = false → k b ≤ k a)
    (x : Item) (l : List Item) (hl : List.Pairwise (fun a b => k a ≤ k b) l) :
    List.Pairwise (fun a b => k a ≤ k b) (insertBy lt x l) := by
  induction l with
  | nil => simp [insertBy]
  | cons y ys ih =>
    rw [List.pairwise_cons] at hl
    rw [insertBy]
    by_cases h : lt y x = true
    · rw [if_pos h, List.pairwise_cons]
      refine ⟨?_, ih hl.2⟩
      intro b hb
      rcases List.mem_cons.mp ((insertBy_perm _ x ys).mem_iff.mp hb) with hb | hb
      · rw [hb]
        exact h1 y x h
      · exact hl.1 b hb
    · rw [if_neg h, List.pairwise_cons]
      have hxy : k x ≤ k y := h2 y x (eq_false_of_ne_true h)
      refine ⟨?_, List.pairwise_cons.mpr hl⟩
      intro b hb
      rcases List.mem_cons.mp hb with hb | hb
      · rw [hb]; exact hxy
      · exact le_trans hxy (hl.1 b hb)

theorem pairwise_stableSortBy {α : Type} [LinearOrder α] (k : Item → α)
    (lt : Item → Item → Bool)
    (h1 : ∀ a b, lt a b = true → k a ≤ k b)
    (h2 : ∀ a b, lt a b = false → k b ≤ k a)
    (l : List Item) :
    List.Pairwise (fun a b => k a ≤ k b) (stableSortBy lt l) := by
  induction l with
  | nil => simp [stableSortBy]
  | cons x xs ih =>
    rw [stableSortBy_cons]
    exact pairwise_insertBy k lt h1 h2 x _ ih

theorem pairwise_key_sortSteps {α : Type} [LinearOrder α] (k : Item → α)
    (hk : ∀ x, k (sortStep x) = k x) (l : List Item)
    (hl : List.Pairwise (fun a b => k a ≤ k b) l) :
    List.Pairwise (fun a b => k a ≤ k b) (sortSteps l) := by
  rw [sortSteps_eq_map, List.pairwise_map]
  refine hl.imp ?_
  intro a b hab
  rw [hk a, hk b]
  exact hab

theorem sortSteps_eq_source_map (l : List Item) :
    sortSteps l = l.map (fun it => match it with
      | Item.folder p o pi cs => Item.folder p o pi (sortToDisplayOrder cs false)
      | x => x) := by
  induction l with
  | nil => rfl
  | cons x xs ih =>
    show sortStep x :: sortSteps xs = _
    rw [List.map_cons, ih, sortStep_eq_source_step]

/-- C9 (confirmed). Sort is a permutation: at every level `sortToDisplayOrder`
returns a permutation of the input siblings with each item transformed only by
recursively sorting folder children (pages and dividers unchanged, a folder
keeping its path, order and pinned flag with its children replaced by their
sorted counterpart); every item keeps its path, order, pinned flag and kind,
and the deep page/folder occurrence multiset — path, ancestors, order, pinned,
kind at every depth — is exactly preserved, so nothing is dropped, duplicated
or added anywhere in the tree. -/
theorem claim_C9_sort_permutation (items : List Item) (b : Bool) :
    List.Perm (sortToDisplayOrder items b) (items.map sortStep) ∧
    (∀ p o pi, sortStep (Item.page p o pi) = Item.page p o pi) ∧
    (∀ o, sortStep (Item.divider o) = Item.divider o) ∧
    (∀ p o pi cs, sortStep (Item.folder p o pi cs) =
      Item.folder p o pi (sortToDisplayOrder cs false)) ∧
    (∀ x : Item, getItemPath (sortStep x) = getItemPath x ∧
      getOrder (sortStep x) = getOrder x ∧ isPinned (sortStep x) = isPinned x ∧
      isDividerB (sortStep x) = isDividerB x) ∧
    List.Perm (fullOccsList [] (sortToDisplayOrder items b)) (fullOccsList [] items) := by
  refine ⟨?_, fun p o pi => rfl, fun o => rfl, ?_, ?_,
    fullOccs_sortToDisplayOrder_perm [] items b⟩
  · have h := sortToDisplayOrder_perm items b
    rw [sortSteps_eq_map] at h
    exact h
  · intro p o pi cs
    show Item.folder p o pi (zoneSort (sortSteps cs)) = _
    rw [zoneSort_sortSteps]
    rfl
  · intro x
    exact ⟨getItemPath_sortStep x, getOrder_sortStep x, isPinned_sortStep x,
      isDividerB_sortStep x⟩

/-- C6 (confirmed). Display-order sort: at the root the output is a
permutation of the (recursively sorted) items, pairwise nondecreasing in
`order` with `pinned` ignored; below the root the output is the pinned
pages/folders sorted by `order`, then the dividers sorted by `order`, then the
unpinned pages/folders sorted case-insensitively by path, each zone a
permutation of the corresponding input zone; and at either level the function
has the literal source shape: sort the sibling list, then map the recursion
into every folder with the below-root rule. -/
theorem claim_C6_display_sort (items : List Item) :
    (List.Perm (sortToDisplayOrder items true) (sortSteps items) ∧
      List.Pairwise (fun a b => getOrder a ≤ getOrder b)
        (sortToDisplayOrder items true)) ∧
    (∃ P D U : List Item,
      sortToDisplayOrder items false = P ++ D ++ U ∧
      List.Perm P (sortSteps (items.filter (fun i => !isDividerB i && isPinned i))) ∧
      List.Perm D (sortSteps (items.filter (fun i => isDividerB i))) ∧
      List.Perm U (sortSteps (items.filter (fun i => !isDividerB i && !isPinned i))) ∧
      List.Pairwise (fun a b => getOrder a ≤ getOrder b) P ∧
      List.Pairwise (fun a b => getOrder a ≤ getOrder b) D ∧
      List.Pairwise (fun a b =>
        (getItemPath a).toLower ≤ (getItemPath b).toLower) U) ∧
    (∀ b : Bool, sortToDisplayOrder items b =
      (if b then stableSortBy ltOrder items else zoneSort items).map
        (fun it => match it with
          | Item.folder p o pi cs => Item.folder p o pi (sortToDisplayOrder cs false)
          | x => x)) := by
  refine ⟨⟨sortToDisplayOrder_perm items true, ?_⟩, ?_, ?_⟩
  · show List.Pairwise _ (sortSteps (stableSortBy ltOrder items))
    exact pairwise_key_sortSteps getOrder getOrder_sortStep _
      (pairwise_stableSortBy getOrder ltOrder (fun a b => ltOrder_le_of_true)
        (fun a b => ltOrder_le_of_false) items)
  · refine ⟨sortSteps (stableSortBy ltOrder
        (items.filter (fun i => !isDividerB i && isPinned i))),
      sortSteps (stableSortBy ltOrder (items.filter (fun i => isDividerB i))),
      sortSteps (stableSortBy ltPath
        (items.filter (fun i => !isDividerB i && !isPinned i))),
      ?_, ?_, ?_, ?_, ?_, ?_, ?_⟩
    · show sortSteps (stableSortBy ltOrder
          (items.filter (fun i => !isDividerB i && isPinned i)) ++
          stableSortBy ltOrder (items.filter (fun i => isDividerB i)) ++
          stableSortBy ltPath (items.filter (fun i => !isDividerB i && !isPinned i))) = _
      rw [sortSteps_append, sortSteps_append]
    · rw [sortSteps_eq_map, sortSteps_eq_map]
      exact (stableSortBy_perm ltOrder _).map sortStep
    · rw [sortSteps_eq_map, sortSteps_eq_map]
      exact (stableSortBy_perm ltOrder _).map sortStep
    · rw [sortSteps_eq_map, sortSteps_eq_map]
      exact (stableSortBy_perm ltPath _).map sortStep
    · exact pairwise_key_sortSteps getOrder getOrder_sortStep _
        (pairwise_stableSortBy getOrder ltOrder (fun a b => ltOrder_le_of_true)
          (fun a b => ltOrder_le_of_false) _)
    · exact pairwise_key_sortSteps getOrder getOrder_sortStep _
        (pairwise_stableSortBy getOrder ltOrder (fun a b => ltOrder_le_of_true)
          (fun a b => ltOrder_le_of_false) _)
    · exact pairwise_key_sortSteps (fun i => (getItemPath i).toLower)
        (fun x => by
          show (getItemPath (sortStep x)).toLower = (getItemPath x).toLower
          rw [getItemPath_sortStep]) _
        (pairwise_stableSortBy (fun i => (getItemPath i).toLower) ltPath
          (fun a b => ltPath_le_of_true) (fun a b => ltPath_le_of_false) _)
  · intro b
    cases b
    · exact sortSteps_eq_source_map (zoneSort items)
    · exact sortSteps_eq_source_map (stableSortBy ltOrder items)

/-! Slug pipeline invariants: after the hyphen-collapse no two adjacent
hyphens remain, the edge strip removes the boundary hyphens, and a non-empty
list of slug characters in that shape is accepted by the `SLUG_REGEX`
matcher. -/

/-- Adjacent characters are not both hyphens. -/
def relH (a b : Char) : Prop := ¬(a = '-' ∧ b = '-')

theorem keep_seg_or_hyphen {c : Char} (h : isSlugKeepChar c = true) :
    isSlugSegmentChar c = true ∨ c = '-' := by
  simp only [isSlugKeepChar, isSlugSegmentChar, Bool.or_eq_true, beq_iff_eq] at h ⊢
  tauto

theorem mem_collapseHyphens :
    ∀ (l : List Char) (b : Bool) (c : Char), c ∈ collapseHyphens b l → c ∈ l
  | [], _, _, h => by simp [collapseHyphens] at h
  | c :: cs, b, d, h => by
    rw [collapseHyphens] at h
    by_cases hc : (c == '-') = true
    · rw [if_pos hc] at h
      by_cases hb : b = true
      · rw [if_pos hb] at h
        exact List.mem_cons_of_mem c (mem_collapseHyphens cs true d h)
      · rw [if_neg hb] at h
        rcases List.mem_cons.mp h with h | h
        · rw [h]
          rw [show c = '-' from beq_iff_eq.mp hc]
          exact List.mem_cons_self _ _
        · exact List.mem_cons_of_mem c (mem_collapseHyphens cs true d h)
    · rw [if_neg hc] at h
      rcases List.mem_cons.mp h with h | h
      · rw [h]; exact List.mem_cons_self _ _
      · exact List.mem_cons_of_mem c (mem_collapseHyphens cs false d h)

theorem head_collapseHyphens_true :
    ∀ l : List Char, (collapseHyphens true l).head? ≠ some '-'
  | [] => by simp [collapseHyphens]
  | c :: cs => by
    rw [collapseHyphens]
    by_cases hc : (c == '-') = true
    · rw [if_pos hc, if_pos rfl]
      exact head_collapseHyphens_true cs
    · rw [if_neg hc]
      intro h
      rw [List.head?_cons, Option.some_inj] at h
      exact hc (beq_iff_eq.mpr h)

theorem chain_collapseHyphens :
    ∀ (l : List Char) (b : Bool), List.Chain' relH (collapseHyphens b l)
  | [], _ => by simp [collapseHyphens]
  | c :: cs, b => by
    rw [collapseHyphens]
    by_cases hc : (c == '-') = true
    · rw [if_pos hc]
      by_cases hb : b = true
      · rw [if_pos hb]
        exact chain_collapseHyphens cs true
      · rw [if_neg hb]
        apply List.chain'_cons'.mpr
        refine ⟨?_, chain_collapseHyphens cs true⟩
        intro y hy
        intro hcon
        apply head_collapseHyphens_true cs
        rw [← hcon.2]
        exact Option.mem_def.mp hy
    · rw [if_neg hc]
      apply List.chain'_cons'.mpr
      refine ⟨?_, chain_collapseHyphens cs false⟩
      intro y _ hcon
      exact hc (beq_iff_eq.mpr hcon.1)

/-- The first half of `stripEdgeHyphens`: remove one leading hyphen. -/
def dropLeadHy : List Char → List Char
  | '-' :: rest => rest
  | other => other

/-- The second half of `stripEdgeHyphens`: remove one trailing hyphen. -/
def dropTrailHy (l : List Char) : List Char :=
  match l.reverse with
  | '-' :: rest => rest.reverse
  | _ => l

theorem stripEdgeHyphens_eq (cs : List Char) :
    stripEdgeHyphens cs = dropTrailHy (dropLeadHy cs) := rfl

theorem dropLeadHy_cons_ne {c : Char} (rest : List Char) (hc : c ≠ '-') :
    dropLeadHy (c :: rest) = c :: rest := by
  unfold dropLeadHy
  split
  · rename_i heq
    rw [List.cons.injEq] at heq
    exact absurd heq.1 hc
  · rfl

theorem dropLeadHy_subset {l : List Char} {c : Char} (h : c ∈ dropLeadHy l) : c ∈ l := by
  cases l with
  | nil => exact h
  | cons a rest =>
    by_cases ha : a = '-'
    · rw [ha] at h ⊢
      exact List.mem_cons_of_mem _ (by simpa [dropLeadHy] using h)
    · rw [dropLeadHy_cons_ne rest ha] at h
      exact h

theorem dropLeadHy_chain {l : List Char} (h : List.Chain' relH l) :
    List.Chain' relH (dropLeadHy l) := by
  cases l with
  | nil => exact h
  | cons a rest =>
    by_cases ha : a = '-'
    · rw [ha]
      show List.Chain' relH rest
      exact (List.chain'_cons'.mp (ha ▸ h)).2
    · rw [dropLeadHy_cons_ne rest ha]
      exact h

theorem dropLeadHy_head {l : List Char} (h : List.Chain' relH l) :
    (dropLeadHy l).head? ≠ some '-' := by
  cases l with
  | nil => simp [dropLeadHy]
  | cons a rest =>
    by_cases ha : a = '-'
    · rw [ha]
      show rest.head? ≠ some '-'
      intro hcon
      have := (List.chain'_cons'.mp (ha ▸ h)).1 '-' (Option.mem_def.mpr hcon)
      exact this ⟨rfl, rfl⟩
    · rw [dropLeadHy_cons_ne rest ha]
      intro hcon
      rw [List.head?_cons, Option.some_inj] at hcon
      exact ha hcon

theorem relH_flip {l : List Char} (h : List.Chain' relH l) :
    List.Chain' (flip relH) l := by
  refine h.imp ?_
  intro a b hab hcon
  exact hab ⟨hcon.2, hcon.1⟩

theorem chain_reverse_of_chain {l : List Char} (h : List.Chain' relH l) :
    List.Chain' relH l.reverse :=
  List.chain'_reverse.mpr (relH_flip h)

theorem dropTrailHy_eq_of_rev {l r : List Char} (hr : l.reverse = '-' :: r) :
    dropTrailHy l = r.reverse := by
  unfold dropTrailHy
  rw [hr]
  rfl

theorem dropTrailHy_eq_self {l : List Char} (hr : l.reverse.head? ≠ some '-') :
    dropTrailHy l = l := by
  unfold dropTrailHy
  split
  · rename_i heq
    rw [heq] at hr
    simp at hr
  · rfl

theorem dropTrailHy_subset {l : List Char} {c : Char} (h : c ∈ dropTrailHy l) : c ∈ l := by
  cases hr : l.reverse with
  | nil =>
    rw [dropTrailHy_eq_self (by rw [hr]; simp)] at h
    exact h
  | cons a r =>
    by_cases ha : a = '-'
    · rw [ha] at hr
      rw [dropTrailHy_eq_of_rev hr] at h
      have : c ∈ '-' :: r := List.mem_cons_of_mem _ (List.mem_reverse.mp h)
      rw [← hr] at this
      exact List.mem_reverse.mp this
    · rw [dropTrailHy_eq_self (by rw [hr]; intro hcon; rw [List.head?_cons, Option.some_inj] at hcon; exact ha hcon)] at h
      exact h

theorem dropTrailHy_chain {l : List Char} (h : List.Chain' relH l) :
    List.Chain' relH (dropTrailHy l) := by
  cases hr : l.reverse with
  | nil =>
    rw [dropTrailHy_eq_self (by rw [hr]; simp)]
    exact h
  | cons a r =>
    by_cases ha : a = '-'
    · rw [ha] at hr
      rw [dropTrailHy_eq_of_rev hr]
      have h1 : List.Chain' relH ('-' :: r) := hr ▸ chain_reverse_of_chain h
      exact chain_reverse_of_chain (List.chain'_cons'.mp h1).2
    · rw [dropTrailHy_eq_self (by rw [hr]; intro hcon; rw [List.head?_cons, Option.some_inj] at hcon; exact ha hcon)]
      exact h

theorem dropTrailHy_getLast {l : List Char} (h : List.Chain' relH l) :
    (dropTrailHy l).getLast? ≠ some '-' := by
  cases hr : l.reverse with
  | nil =>
    rw [dropTrailHy_eq_self (by rw [hr]; simp)]
    have : l = [] := by simpa using congrArg List.reverse hr
    rw [this]
    simp
  | cons a r =>
    by_cases ha : a = '-'
    · rw [ha] at hr
      rw [dropTrailHy_eq_of_rev hr, List.getLast?_reverse]
      have h1 : List.Chain' relH ('-' :: r) := hr ▸ chain_reverse_of_chain h
      intro hcon
      have := (List.chain'_cons'.mp h1).1 '-' (Option.mem_def.mpr hcon)
      exact this ⟨rfl, rfl⟩
    · rw [dropTrailHy_eq_self (by rw [hr]; intro hcon; rw [List.head?_cons, Option.some_inj] at hcon; exact ha hcon)]
      rw [← List.head?_reverse, hr]
      intro hcon
      rw [List.head?_cons, Option.some_inj] at hcon
      exact ha hcon

theorem dropTrailHy_head {l : List Char} (h : l.head? ≠ some '-') :
    (dropTrailHy l).head? ≠ some '-' := by
  cases hr : l.reverse with
  | nil =>
    rw [dropTrailHy_eq_self (by rw [hr]; simp)]
    exact h
  | cons a r =>
    by_cases ha : a = '-'
    · rw [ha] at hr
      rw [dropTrailHy_eq_of_rev hr]
      cases hr2 : r.reverse with
      | nil => simp
      | cons b t =>
        rw [List.head?_cons]
        have hl : l = r.reverse ++ ['-'] := by
          have := congrArg List.reverse hr
          simpa [List.reverse_cons] using this
        rw [hl, hr2] at h
        intro hcon
        rw [Option.some_inj] at hcon
        apply h
        rw [List.cons_append, List.head?_cons, hcon]
    · rw [dropTrailHy_eq_self (by rw [hr]; intro hcon; rw [List.head?_cons, Option.some_inj] at hcon; exact ha hcon)]
      exact h

theorem slugTail_accept :
    ∀ cs : List Char, (∀ c ∈ cs, isSlugKeepChar c = true) →
      List.Chain' relH cs → cs.getLast? ≠ some '-' → slugTail cs = true
  | [], _, _, _ => rfl
  | c :: rest, hkeep, hch, hlast => by
    rcases keep_seg_or_hyphen (hkeep c (List.mem_cons_self _ _)) with hseg | hhy
    · rw [slugTail, if_pos hseg]
      cases rest with
      | nil => rfl
      | cons d rest2 =>
        apply slugTail_accept (d :: rest2)
          (fun x hx => hkeep x (List.mem_cons_of_mem c hx))
          (List.chain'_cons'.mp hch).2
        rw [← List.getLast?_cons_cons]
        exact hlast
    · subst hhy
      cases rest with
      | nil =>
        exact absurd (by rfl) hlast
      | cons d rest2 =>
        have hd : d ≠ '-' := by
          intro hcon
          have := (List.chain'_cons'.mp hch).1 d (by rw [List.head?_cons]; rfl)
          exact this ⟨rfl, hcon⟩
        have hdseg : isSlugSegmentChar d = true := by
          rcases keep_seg_or_hyphen
            (hkeep d (List.mem_cons_of_mem _ (List.mem_cons_self _ _))) with h | h
          · exact h
          · exact absurd h hd
        have hrec : slugTail (d :: rest2) = true := by
          apply slugTail_accept (d :: rest2)
            (fun x hx => hkeep x (List.mem_cons_of_mem _ hx))
            (List.chain'_cons'.mp hch).2
          rw [← List.getLast?_cons_cons]
          exact hlast
        rw [slugTail]
        rw [if_neg (by simp [isSlugSegmentChar]), if_pos (by simp)]
        rw [slugHead, hdseg, Bool.true_and]
        rw [slugTail, if_pos hdseg] at hrec
        exact hrec

theorem slugHead_accept (cs : List Char)
    (hkeep : ∀ c ∈ cs, isSlugKeepChar c = true)
    (hch : List.Chain' relH cs)
    (hhead : cs.head? ≠ some '-')
    (hlast : cs.getLast? ≠ some '-')
    (hne : cs ≠ []) : slugHead cs = true := by
  cases cs with
  | nil => exact absurd rfl hne
  | cons c rest =>
    have hc : c ≠ '-' := by
      intro hcon
      apply hhead
      rw [List.head?_cons, hcon]
    have hseg : isSlugSegmentChar c = true := by
      rcases keep_seg_or_hyphen (hkeep c (List.mem_cons_self _ _)) with h | h
      · exact h
      · exact absurd h hc
    rw [slugHead, hseg, Bool.true_and]
    apply slugTail_accept rest
      (fun x hx => hkeep x (List.mem_cons_of_mem c hx))
      (List.chain'_cons'.mp hch).2
    cases rest with
    | nil => simp
    | cons d rest2 =>
      rw [← List.getLast?_cons_cons]
      exact hlast

/-- C10 (confirmed). Slug normalization is total: for every input string,
`nameToSlug` returns either the empty string or a string accepted by
`isValidSlug` — non-empty, made of lowercase letters, digits and single
interior hyphens, with no leading, trailing or repeated hyphen. -/
theorem claim_C10_slug_totality (name : String) :
    nameToSlug name = "" ∨ isValidSlug (nameToSlug name) = true := by
  by_cases hS : nameToSlugChars name.data = []
  · left
    show String.mk (nameToSlugChars name.data) = ""
    rw [hS]
  · right
    have hcoll := chain_collapseHyphens
      ((wsRunsToHyphen false ((trimChars name.data).map Char.toLower)).filter
        isSlugKeepChar) false
    have hkeepS : ∀ c ∈ nameToSlugChars name.data, isSlugKeepChar c = true := by
      intro c hc
      rw [show nameToSlugChars name.data = dropTrailHy (dropLeadHy (collapseHyphens false
          ((wsRunsToHyphen false ((trimChars name.data).map Char.toLower)).filter
            isSlugKeepChar))) from rfl] at hc
      exact List.of_mem_filter
        (mem_collapseHyphens _ false c (dropLeadHy_subset (dropTrailHy_subset hc)))
    have hchS : List.Chain' relH (nameToSlugChars name.data) :=
      dropTrailHy_chain (dropLeadHy_chain hcoll)
    have hheadS : (nameToSlugChars name.data).head? ≠ some '-' :=
      dropTrailHy_head (dropLeadHy_head hcoll)
    have hlastS : (nameToSlugChars name.data).getLast? ≠ some '-' :=
      dropTrailHy_getLast (dropLeadHy_chain hcoll)
    have hacc := slugHead_accept _ hkeepS hchS hheadS hlastS hS
    show (decide ((String.mk (nameToSlugChars name.data)).length > 0) &&
      slugHead (String.mk (nameToSlugChars name.data)).data) = true
    rw [Bool.and_eq_true]
    refine ⟨?_, hacc⟩
    apply decide_eq_true
    show 0 < (nameToSlugChars name.data).length
    cases hL : nameToSlugChars name.data with
    | nil => exact absurd hL hS
    | cons a t => simp

/-! Identity of the merge under a mirrored observed structure: when every
configured folder finds an observed folder of the same path (matched), every
observed page/folder is already present in the configured level (covered), the
deep paths are duplicate-free and nonempty, the three merge phases return the
configured list unchanged with the running maximum untouched. -/

theorem mem_levelPaths_of_mem {l : List Item} {x : Item} (hx : x ∈ l)
    (hd : isDividerB x = false) : getItemPath x ∈ levelPaths l := by
  rw [← any_path_iff_mem_levelPaths]
  rw [List.any_eq_true]
  exact ⟨x, hx, by simp [hd]⟩

theorem findPF_unique {l : List Item} {k : Item} {p : String}
    (hnd : (levelPaths l).Nodup) (hk : k ∈ l) (hdk : isDividerB k = false)
    (hpk : getItemPath k = p) : findPF l p = some k := by
  induction l with
  | nil => exact absurd hk (List.not_mem_nil k)
  | cons y ys ih =>
    rcases List.mem_cons.mp hk with hk | hk
    · subst hk
      exact List.find?_cons_of_pos ys (by simp [hdk, hpk])
    · by_cases hy : (!isDividerB y && getItemPath y == p) = true
      · exfalso
        rw [Bool.and_eq_true, Bool.not_eq_true', beq_iff_eq] at hy
        rw [levelPaths_cons, hy.1] at hnd
        simp only [if_false, Bool.false_eq_true, List.singleton_append] at hnd
        rw [List.nodup_cons] at hnd
        apply hnd.1
        rw [hy.2, ← hpk]
        exact mem_levelPaths_of_mem hk hdk
      · rw [show findPF (y :: ys) p = findPF ys p from
          List.find?_cons_of_neg ys (by simpa using hy)]
        apply ih
        · rw [levelPaths_cons] at hnd
          exact hnd.sublist (List.sublist_append_right _ _)
        · exact hk

theorem coveredListB_mem {K C : List Item} {c : Item}
    (h : coveredListB K C = true) (hc : c ∈ C) : coveredItemB K c = true := by
  induction C with
  | nil => exact absurd hc (List.not_mem_nil c)
  | cons x xs ih =>
    have hsplit : (coveredItemB K x && coveredListB K xs) = true := h
    rw [Bool.and_eq_true] at hsplit
    rcases List.mem_cons.mp hc with hc | hc
    · rw [hc]; exact hsplit.1
    · exact ih hsplit.2 hc

theorem appendIdentity (K : List Item) :
    ∀ (C : List Item), coveredListB K C = true → ∀ m, mergeAppendWalk K C m = (K, m) := by
  intro C
  induction C with
  | nil => intro _ m; exact mergeAppendWalk_nil K m
  | cons c cs ih =>
    intro hcov m
    have hsplit : (coveredItemB K c && coveredListB K cs) = true := hcov
    rw [Bool.and_eq_true] at hsplit
    cases c with
    | divider o =>
      rw [@mergeAppendWalk_skip_divider (Item.divider o) K cs m rfl]
      exact ih hsplit.2 m
    | page p o pi =>
      by_cases hp : p = ""
      · rw [@mergeAppendWalk_skip_empty (Item.page p o pi) K cs m rfl hp]
        exact ih hsplit.2 m
      · have hc1 := hsplit.1
        rcases hfp : findPF K p with _ | x
        · exfalso
          rw [show coveredItemB K (Item.page p o pi) =
            (match findPF K p with
              | some (.page _ _ _) => true
              | _ => false) from rfl, hfp] at hc1
          simp at hc1
        · have hspec := findPF_spec hfp
          have hmem := findPF_mem hfp
          rw [@mergeAppendWalk_skip_seen (Item.page p o pi) K cs m rfl hp ?_]
          · exact ih hsplit.2 m
          · rw [List.any_eq_true]
            refine ⟨x, hmem, ?_⟩
            rw [Bool.and_eq_true, Bool.not_eq_true', beq_iff_eq]
            exact ⟨hspec.1, by rw [hspec.2]; rfl⟩
    | folder p o pi ccs =>
      by_cases hp : p = ""
      · rw [@mergeAppendWalk_skip_empty (Item.folder p o pi ccs) K cs m rfl hp]
        exact ih hsplit.2 m
      · have hc1 := hsplit.1
        rcases hfp : findPF K p with _ | x
        · exfalso
          rw [show coveredItemB K (Item.folder p o pi ccs) =
            (match findPF K p with
              | some (.folder _ _ _ kcs) => coveredListB kcs ccs
              | _ => false) from rfl, hfp] at hc1
          simp at hc1
        · have hspec := findPF_spec hfp
          have hmem := findPF_mem hfp
          rw [@mergeAppendWalk_skip_seen (Item.folder p o pi ccs) K cs m rfl hp ?_]
          · exact ih hsplit.2 m
          · rw [List.any_eq_true]
            refine ⟨x, hmem, ?_⟩
            rw [Bool.and_eq_true, Bool.not_eq_true', beq_iff_eq]
            exact ⟨hspec.1, by rw [hspec.2]; rfl⟩

theorem mergeCWIdentityAux :
    ∀ (n : Nat) (C : List Item), sizeOf C < n →
      (listDeepPaths C).Nodup →
      ∀ (K : List Item), (listDeepPaths K).Nodup →
        (∀ q ∈ listDeepPaths K, q ≠ "") →
        coveredListB K C = true →
        ∀ (K1 : List Item), matchedListB C K1 = true → (∀ k ∈ K1, k ∈ K) →
        ∀ m, mergeConfigWalk K1 C m = (K1, m) := by
  intro n
  induction n with
  | zero => intro C hC; omega
  | succ n ihn =>
    intro C hC hndC K hndK hneK hcov K1
    induction K1 with
    | nil => intro _ _ m; exact mergeConfigWalk_nil C m
    | cons k ks ihk =>
      intro hm hsub m
      rw [matchedListB_cons] at hm
      have hksub : ∀ x ∈ ks, x ∈ K := fun x hx => hsub x (List.mem_cons_of_mem k hx)
      have hkK : k ∈ K := hsub k (List.mem_cons_self k ks)
      cases k with
      | divider o =>
        rw [mergeConfigWalk_divider, ihk hm.2 hksub m]
      | page p o pi =>
        rw [mergeConfigWalk_page, ihk hm.2 hksub m]
      | folder p o pi kcs =>
        have hp : p ≠ "" := hneK p (path_mem_deep_of_mem hkK rfl)
        have hm1 := hm.1
        rw [show matchedItemB C (Item.folder p o pi kcs) =
          (match findPF C p with
            | some (.folder _ _ _ ccs) => matchedListB ccs kcs
            | _ => false) from rfl] at hm1
        rcases hfp : findPF C p with _ | cf
        · rw [hfp] at hm1; simp at hm1
        · rw [hfp] at hm1
          cases cf with
          | divider o2 => simp at hm1
          | page p2 o2 pi2 => simp at hm1
          | folder a b c2 ccs =>
            have hlevC : (levelPaths C).Nodup := hndC.sublist (levelPaths_sublist C)
            have hlook : lookupLast C p = some (Item.folder a b c2 ccs) := by
              rw [findPF_eq_lookupLast hlevC hp, hfp]
            have hcfmem : Item.folder a b c2 ccs ∈ C := findPF_mem hfp
            have hcfspec := findPF_spec hfp
            have hlevK : (levelPaths K).Nodup := hndK.sublist (levelPaths_sublist K)
            have hKfind : findPF K p = some (Item.folder p o pi kcs) :=
              findPF_unique hlevK hkK rfl rfl
            have hcovcf := coveredListB_mem hcov hcfmem
            rw [show coveredItemB K (Item.folder a b c2 ccs) =
              (match findPF K a with
                | some (.folder _ _ _ kcs2) => coveredListB kcs2 ccs
                | _ => false) from rfl] at hcovcf
            have ha : a = p := hcfspec.2
            rw [ha, hKfind] at hcovcf
            have hszccs : sizeOf ccs < n := by
              have h1 := sizeOf_lt_of_mem_items hcfmem
              have h2 : sizeOf ccs < sizeOf (Item.folder a b c2 ccs) := by
                simp
              omega
            have hndccs : (listDeepPaths ccs).Nodup :=
              hndC.sublist (childDeepPaths_sublist_of_mem hcfmem)
            have hndkcs : (listDeepPaths kcs).Nodup :=
              hndK.sublist (childDeepPaths_sublist_of_mem hkK)
            have hnekcs : ∀ q ∈ listDeepPaths kcs, q ≠ "" := fun q hq =>
              hneK q ((childDeepPaths_sublist_of_mem hkK).subset hq)
            have hcw : mergeConfigWalk kcs ccs m = (kcs, m) :=
              ihn ccs hszccs hndccs kcs hndkcs hnekcs hcovcf kcs hm1
                (fun x hx => hx) m
            have hmc : mergeChildrenLists kcs ccs m = (kcs, m) := by
              rw [mergeChildrenLists_eq, hcw]
              exact appendIdentity kcs ccs hcovcf m
            rw [mergeConfigWalk_folder_found p o pi kcs ks C m hp hlook]
            rw [hmc, ihk hm.2 hksub m]

theorem mergeChildrenIdentity (C K : List Item)
    (hndC : (listDeepPaths C).Nodup) (hndK : (listDeepPaths K).Nodup)
    (hneK : ∀ q ∈ listDeepPaths K, q ≠ "")
    (hcov : coveredListB K C = true) (hm : matchedListB C K = true) (m : Int) :
    mergeChildrenLists K C m = (K, m) := by
  rw [mergeChildrenLists_eq]
  rw [mergeCWIdentityAux (sizeOf C + 1) C (by omega) hndC K hndK hneK hcov K hm
    (fun x hx => hx) m]
  exact appendIdentity K C hcov m

theorem dividerFreeListB_mem {l : List Item} {x : Item}
    (h : dividerFreeListB l = true) (hx : x ∈ l) : dividerFreeItem x = true := by
  induction l with
  | nil => exact absurd hx (List.not_mem_nil x)
  | cons y ys ih =>
    have hsplit : (dividerFreeItem y && dividerFreeListB ys) = true := h
    rw [Bool.and_eq_true] at hsplit
    rcases List.mem_cons.mp hx with hx | hx
    · rw [hx]; exact hsplit.1
    · exact ih hsplit.2 hx

theorem dividerFree_ndbr {l : List Item} (h : dividerFreeListB l = true) :
    noDividersBelowRoot l = true := by
  show l.all _ = true
  rw [List.all_eq_true]
  intro x hx
  have hdf := dividerFreeListB_mem h hx
  cases x with
  | divider o => rfl
  | page p o pi => rfl
  | folder p o pi cs => exact hdf

theorem ndbr_tail {x : Item} {rest : List Item}
    (h : noDividersBelowRoot (x :: rest) = true) :
    noDividersBelowRoot rest = true := by
  have h2 : ((x :: rest).all fun y =>
      match y with
      | .folder _ _ _ cs => dividerFreeListB cs
      | _ => true) = true := h
  rw [List.all_cons, Bool.and_eq_true] at h2
  exact h2.2

theorem ndbr_head_folder {p : String} {o : Int} {pi : Bool} {cs rest : List Item}
    (h : noDividersBelowRoot (Item.folder p o pi cs :: rest) = true) :
    dividerFreeListB cs = true := by
  have h2 : ((Item.folder p o pi cs :: rest).all fun y =>
      match y with
      | .folder _ _ _ cs => dividerFreeListB cs
      | _ => true) = true := h
  rw [List.all_cons, Bool.and_eq_true] at h2
  exact h2.1

mutual

theorem filterTop_id : ∀ (K : List Item) (V : List String),
    noDividersBelowRoot K = true →
    (∀ q ∈ listDeepPaths K, q ≠ "" ∧ q ∈ V) →
    filterConfigToExisting K V = K
  | [], V, _, _ => by rw [filterConfigToExisting]
  | .divider o :: rest, V, hnd, hq => by
      rw [filterConfigToExisting]
      rw [filterTop_id rest V (ndbr_tail hnd)
        (fun q hqr => hq q (by rw [listDeepPaths_cons]; exact List.mem_append_right _ hqr))]
  | .page p o pi :: rest, V, hnd, hq => by
      have hp := hq p (by
        rw [listDeepPaths_cons]
        exact List.mem_append_left _ (List.mem_singleton_self p))
      rw [filterConfigToExisting, if_pos hp]
      rw [filterTop_id rest V (ndbr_tail hnd)
        (fun q hqr => hq q (by rw [listDeepPaths_cons]; exact List.mem_append_right _ hqr))]
  | .folder p o pi cs :: rest, V, hnd, hq => by
      have hp := hq p (by
        rw [listDeepPaths_cons]
        exact List.mem_append_left _ (List.mem_cons_self p _))
      rw [filterConfigToExisting, if_pos hp]
      rw [filterChildren_id cs V (ndbr_head_folder hnd)
        (fun q hqc => hq q (by
          rw [listDeepPaths_cons]
          exact List.mem_append_left _ (List.mem_cons_of_mem p hqc)))]
      rw [filterTop_id rest V (ndbr_tail hnd)
        (fun q hqr => hq q (by rw [listDeepPaths_cons]; exact List.mem_append_right _ hqr))]

theorem filterChildren_id : ∀ (K : List Item) (V : List String),
    dividerFreeListB K = true →
    (∀ q ∈ listDeepPaths K, q ≠ "" ∧ q ∈ V) →
    filterChildren K V = K
  | [], V, _, _ => by rw [filterChildren]
  | .divider o :: rest, V, hdf, _ => by
      exfalso
      have hsplit : (dividerFreeItem (Item.divider o) && dividerFreeListB rest) = true := hdf
      rw [show dividerFreeItem (Item.divider o) = false from rfl] at hsplit
      simp at hsplit
  | .page p o pi :: rest, V, hdf, hq => by
      have hp := hq p (by
        rw [listDeepPaths_cons]
        exact List.mem_append_left _ (List.mem_singleton_self p))
      have hsplit : (dividerFreeItem (Item.page p o pi) && dividerFreeListB rest) = true := hdf
      rw [Bool.and_eq_true] at hsplit
      rw [filterChildren, if_pos hp]
      rw [filterChildren_id rest V hsplit.2
        (fun q hqr => hq q (by rw [listDeepPaths_cons]; exact List.mem_append_right _ hqr))]
  | .folder p o pi cs :: rest, V, hdf, hq => by
      have hp := hq p (by
        rw [listDeepPaths_cons]
        exact List.mem_append_left _ (List.mem_cons_self p _))
      have hsplit : (dividerFreeItem (Item.folder p o pi cs) && dividerFreeListB rest) = true := hdf
      rw [Bool.and_eq_true] at hsplit
      rw [filterChildren, if_pos hp]
      rw [filterTop_id cs V (dividerFree_ndbr hsplit.1)
        (fun q hqc => hq q (by
          rw [listDeepPaths_cons]
          exact List.mem_append_left _ (List.mem_cons_of_mem p hqc)))]
      rw [filterChildren_id rest V hsplit.2
        (fun q hqr => hq q (by rw [listDeepPaths_cons]; exact List.mem_append_right _ hqr))]

end

/-- C7 as stated is false: the configured structure below is a fixpoint of
`normalizeOrders` (orders are dense 1..N per level) and the observed structure
has exactly the same page/folder paths, yet reconciliation re-sorts the folder
children into display order (pinned first, then alphabetical), which differs
from the stored child order, so the output is not structurally identical to
the input configuration. -/
theorem claim_C7_counterexample :
    normalizeOrders [Item.folder "f" 1 false
      [Item.page "f/z" 1 false, Item.page "f/a" 2 true]] =
      [Item.folder "f" 1 false [Item.page "f/z" 1 false, Item.page "f/a" 2 true]] ∧
    mergeSidebarWithContent
      [Item.folder "f" 1 false [Item.page "f/z" 1 false, Item.page "f/a" 2 true]]
      [Item.folder "f" 1 false [Item.page "f/z" 1 false, Item.page "f/a" 2 true]] ≠
      [Item.folder "f" 1 false [Item.page "f/z" 1 false, Item.page "f/a" 2 true]] := by
  constructor
  · decide
  · have hfil : filterConfigToExisting
        [Item.folder "f" 1 false [Item.page "f/z" 1 false, Item.page "f/a" 2 true]]
        (getValidPathsFromContentStructure
          [Item.folder "f" 1 false [Item.page "f/z" 1 false, Item.page "f/a" 2 true]]) =
        [Item.folder "f" 1 false [Item.page "f/z" 1 false, Item.page "f/a" 2 true]] :=
      filterTop_id _ _ (by decide) (by decide)
    have hmc : mergeChildrenLists
        [Item.folder "f" 1 false [Item.page "f/z" 1 false, Item.page "f/a" 2 true]]
        [Item.folder "f" 1 false [Item.page "f/z" 1 false, Item.page "f/a" 2 true]]
        (getMaxOrderInStructure
          [Item.folder "f" 1 false [Item.page "f/z" 1 false, Item.page "f/a" 2 true]]) =
        ([Item.folder "f" 1 false [Item.page "f/z" 1 false, Item.page "f/a" 2 true]],
          getMaxOrderInStructure
            [Item.folder "f" 1 false [Item.page "f/z" 1 false, Item.page "f/a" 2 true]]) :=
      mergeChildrenIdentity _ _ (by decide) (by decide) (by decide) (by decide)
        (by decide) _
    rw [mergeSidebar_eq, hfil, hmc]
    decide

/-- C7 (corrected). Idempotence holds for display-ordered configurations:
when the configured structure is a fixpoint of the display sort, has no
dividers below the root, all its deep paths are nonempty and exist in the
observed structure, every configured folder matches an observed folder of the
same path level by level, every observed page/folder is covered by a
configured node of the same path and kind, and both deep path lists are
duplicate-free, then `mergeSidebarWithContent` returns the configured
structure unchanged. -/
theorem claim_C7_idempotence (content config : List Item)
    (hfix : sortToDisplayOrder config true = config)
    (hndb : noDividersBelowRoot config = true)
    (hpaths : ∀ q ∈ listDeepPaths config,
      q ≠ "" ∧ q ∈ getValidPathsFromContentStructure content)
    (hm : matchedListB content config = true)
    (hcov : coveredListB config content = true)
    (hndK : (listDeepPaths config).Nodup)
    (hndC : (listDeepPaths content).Nodup) :
    mergeSidebarWithContent content config = config := by
  rw [mergeSidebar_eq]
  rw [filterTop_id config _ hndb hpaths]
  rw [mergeChildrenIdentity content config hndC hndK
    (fun q hq => (hpaths q hq).1) hcov hm _]
  exact hfix

/-- Witness for C7 at a concrete display-ordered input: reconciling the
configuration against a mirror observed structure returns it unchanged. -/
theorem claim_C7_idempotence_witness :
    mergeSidebarWithContent
      [Item.folder "f" 1 false [Item.page "f/a" 1 true, Item.page "f/z" 2 false]]
      [Item.folder "f" 1 false [Item.page "f/a" 1 true, Item.page "f/z" 2 false]] =
      [Item.folder "f" 1 false [Item.page "f/a" 1 true, Item.page "f/z" 2 false]] :=
  claim_C7_idempotence _ _ (by decide) (by decide) (by decide) (by decide)
    (by decide) (by decide) (by decide)
